import Mathlib

/-
Verification of the MARP-Guide-AI answer-assembly pipeline.

This file gives a shallow embedding of the citation-faithful answer-assembly
core of the repository:
  * the token-window chunker           (src/services/indexing/indexing_service.py, chunk_document)
  * the prompt context builder         (src/services/chat/prompt_templates.py)
  * the citation resolver              (src/services/chat/chat_service.py, chat / generate_with_model)
  * the empty-retrieval orchestration  (src/services/chat/chat_service.py)

Text is modelled as `List Char`; Python string primitives (str.replace,
str.strip, str.lower, slicing, the regexes used by the service, namely
finding and removing occurrences of a bracketed integer marker) are given
executable definitions below that follow CPython semantics on the inputs
the service handles.
-/

set_option maxHeartbeats 1000000

namespace MarpGuide

/-- Text is modelled as a list of characters (a Python `str`). -/
abbrev Text := List Char

/-- Python `str.strip()`: remove leading and trailing whitespace. -/
def pyStrip (s : Text) : Text :=
  ((s.dropWhile Char.isWhitespace).reverse.dropWhile Char.isWhitespace).reverse

/-- Python `str.lower()` restricted to the ASCII case mapping used by the
insufficient-information phrase check. -/
def pyLower (s : Text) : Text := s.map Char.toLower

/-- Helper for `natDigits`: the fuel (first argument) bounds the number of
division steps and always suffices when it exceeds the value. -/
def natDigitsAux : Nat → Nat → Text
  | 0, _ => []
  | fuel + 1, m =>
    if m < 10 then [Char.ofNat (48 + m)]
    else natDigitsAux fuel (m / 10) ++ [Char.ofNat (48 + m % 10)]

/-- Decimal digits of a natural number, most significant first; mirrors
Python `str(n)` for `n : Nat`. -/
def natDigits (n : Nat) : Text := natDigitsAux (n + 1) n

/-- Python `str(n)` for `n : Int` (decimal, with a leading minus sign when
negative). -/
def intRepr (n : Int) : Text :=
  match n with
  | Int.ofNat m => natDigits m
  | Int.negSucc m => '-' :: natDigits (m + 1)

/-- Value of a list of decimal digit characters, as computed by Python
`int(s)` on the digit group captured by the citation-marker regex. -/
def digitsToNat (ds : Text) : Nat :=
  ds.foldl (fun a c => a * 10 + (c.toNat - 48)) 0

/-- Python `pat in s` (substring test). -/
def containsSub (pat : Text) : Text → Bool
  | [] => pat.isEmpty
  | c :: rest => pat.isPrefixOf (c :: rest) || containsSub pat rest

/-- Helper for `replaceAll`: in skip mode (first argument positive) the
scanner is inside an already-replaced occurrence and drops characters; at
skip 0 it tests the pattern at the current position.  On a match it emits
the replacement and skips the rest of the matched occurrence, so the
replacement text is never rescanned — exactly Python `str.replace`. -/
def raAux (p : Char) (ps rep : Text) : Nat → Text → Text
  | _, [] => []
  | 0, c :: rest =>
    if (p :: ps).isPrefixOf (c :: rest) then rep ++ raAux p ps rep ps.length rest
    else c :: raAux p ps rep 0 rest
  | k + 1, _ :: rest => raAux p ps rep k rest

/-- Python `s.replace(p :: ps, rep)`: replace every non-overlapping
occurrence of the (non-empty) pattern, scanning left to right. -/
def replaceAll (p : Char) (ps rep : Text) (s : Text) : Text := raAux p ps rep 0 s

/-- Python `s.replace(pat, rep)`. The service only ever calls this with a
non-empty pattern; for an empty pattern we return `s` unchanged. -/
def pyReplace (pat rep s : Text) : Text :=
  match pat with
  | [] => s
  | p :: ps => replaceAll p ps rep s

/-- Python `re.findall(r"\[(\d+)\]", s)` followed by `int(...)` on each
capture: the list of integers appearing as bracketed markers `[n]`, in
scan order (left to right).  A marker occurrence is `'['`, a non-empty
maximal digit group, `']'`; the scanner may simply continue at the next
character after recording a match, because no further occurrence can begin
inside the digits or at the closing bracket of a match, which makes the
recursion structural. -/
def extractAll : Text → List Nat
  | [] => []
  | c :: rest =>
    if c = '[' ∧ (rest.takeWhile Char.isDigit).isEmpty = false ∧
        (rest.dropWhile Char.isDigit).head? = some ']' then
      digitsToNat (rest.takeWhile Char.isDigit) :: extractAll rest
    else extractAll rest

/-- Helper for `removeMarkers`: in skip mode (first argument positive) the
scanner is inside a matched marker and drops characters; at skip 0 it tests
for a marker occurrence at the current position and, on a match, drops the
opening bracket and enters skip mode for the digits and closing bracket. -/
def rmAux : Nat → Text → Text
  | _, [] => []
  | 0, c :: rest =>
    if c = '[' ∧ (rest.takeWhile Char.isDigit).isEmpty = false ∧
        (rest.dropWhile Char.isDigit).head? = some ']' then
      rmAux ((rest.takeWhile Char.isDigit).length + 1) rest
    else c :: rmAux 0 rest
  | k + 1, _ :: rest => rmAux k rest

/-- Python `re.sub(r"\[\d+\]", "", s)`: remove every bracketed integer
marker, leaving the rest of the text unchanged. -/
def removeMarkers (s : Text) : Text := rmAux 0 s

/-- Insert a natural number into a sorted duplicate-free list, keeping it
sorted and duplicate-free. -/
def insertSorted (n : Nat) : List Nat → List Nat
  | [] => [n]
  | m :: rest =>
    if n < m then n :: m :: rest
    else if n = m then m :: rest
    else m :: insertSorted n rest

/-- Python `sorted(set(l))`: the distinct elements of `l` in increasing
order.  This is the canonical representation used for the Python sets of
cited numbers. -/
def dedupSort (l : List Nat) : List Nat := l.foldr insertSorted []

/-! Marker and placeholder strings used by the citation resolver
(src/services/chat/chat_service.py).  `markerStr n` is the Python f-string
f"[{n}]", `citeStr k` is f"<<CITE_{k}>>", `finalStr k` is f"<<FINAL_{k}>>". -/

/-- The literal text of a citation marker `[n]`. -/
def markerStr (n : Nat) : Text := '[' :: (natDigits n ++ [']'])

/-- The literal text of the first-pass placeholder `<<CITE_k>>`. -/
def citeStr (k : Nat) : Text := ("<<CITE_").data ++ natDigits k ++ (">>").data

/-- The literal text of the renumbering placeholder `<<FINAL_k>>`. -/
def finalStr (k : Nat) : Text := ("<<FINAL_").data ++ natDigits k ++ (">>").data

/-- The fixed phrase list `insufficient_info_phrases` of chat_service.py
(identical in `chat` and in `generate_with_model`). -/
def insufficientPhrases : List Text :=
  [ ("does not contain").data,
    ("doesn't contain").data,
    ("do not contain").data,
    ("don't contain").data,
    ("not enough information").data,
    ("cannot answer").data,
    ("can't answer").data,
    ("unable to answer").data,
    ("no information").data ]

/-- Lowercase the first 150 characters of the answer and test each fixed
phrase for substring occurrence (chat_service.py lines 233-235). -/
def hasInsufficientInfo (answer : Text) : Bool :=
  insufficientPhrases.any (fun p => containsSub p ((pyLower answer).take 150))

/-- A retrieved chunk as returned by the retrieval service: the payload keys
`title`, `page`, `url`, `text` used by the chat service (`score` is never
read by the resolver or the prompt builder and is omitted). -/
structure RChunk where
  title : Text
  page : Int
  url : Text
  text : Text
deriving DecidableEq

/-- The chat service's `Citation` response model. -/
structure Citation where
  title : Text
  page : Int
  url : Text
deriving DecidableEq

/-- The mutable state of the deduplication loop of chat_service.py lines
254-273: the `citations` list, the `seen_citations` set (kept as a list in
insertion order) and the insertion-ordered dict `citation_mapping`. -/
structure DState where
  citations : List Citation
  seen : List (Text × Int)
  mapping : List (Nat × Nat)
deriving DecidableEq

/-- The dedup key `(chunk.get("title", ""), chunk.get("page", 0))`. -/
def keyOf (c : RChunk) : Text × Int := (c.title, c.page)

/-- The key of `chunks[i - 1]` (Python indexing `chunks[old_idx - 1]` in the
collapse search); `none` when the index is out of range. -/
def chunkKeyAt (chunks : List RChunk) (i : Nat) : Option (Text × Int) :=
  (chunks.get? (i - 1)).map keyOf

/-- Python `citation_mapping[i]` as an insertion-ordered association list
lookup (`find?` returns the first binding, and a key is inserted at most
once by the loop). -/
def mappingLookup (m : List (Nat × Nat)) (i : Nat) : Option Nat :=
  (m.find? (fun p => p.fst == i)).map Prod.snd

/-- One iteration of the deduplication loop (chat_service.py lines 258-273)
for rank `idx` and chunk `c`.  A cited rank with an unseen, truthy key
creates a citation and a mapping entry; a cited rank whose key was already
seen is remapped to the first earlier mapping entry with the same key; a
cited rank with a falsy key (empty title or page 0) changes nothing. -/
def dedupStep (chunks : List RChunk) (cited : List Nat) (st : DState) (idx : Nat) (c : RChunk) :
    DState :=
  if idx ∈ cited then
    let key := keyOf c
    if key ∉ st.seen ∧ c.title ≠ [] ∧ c.page ≠ 0 then
      { citations := st.citations ++ [⟨c.title, c.page, c.url⟩],
        seen := st.seen ++ [key],
        mapping := st.mapping ++ [(idx, st.citations.length + 1)] }
    else if key ∈ st.seen then
      match st.mapping.find? (fun p => chunkKeyAt chunks p.fst == some key) with
      | some p => { st with mapping := st.mapping ++ [(idx, p.snd)] }
      | none => st
    else st
  else st

/-- The full deduplication loop `for idx, chunk in enumerate(chunks, start=1)`. -/
def dedupFold (chunks : List RChunk) (cited : List Nat) : DState :=
  (chunks.enumFrom 1).foldl (fun st p => dedupStep chunks cited st p.fst p.snd) ⟨[], [], []⟩

/-- First renumbering pass (chat_service.py lines 276-279): for each cited
number in decreasing order that has a mapping entry, replace its marker by
the `<<CITE_k>>` placeholder. -/
def pass1 (mapping : List (Nat × Nat)) (olds : List Nat) (ans : Text) : Text :=
  olds.foldl (fun a old =>
    match mappingLookup mapping old with
    | some nw => pyReplace (markerStr old) (citeStr nw) a
    | none => a) ans

/-- Second renumbering pass (lines 281-282): resolve each distinct mapping
value's placeholder back to a bracket marker.  CPython iterates
`set(citation_mapping.values())` over small ints in increasing order, which
`dedupSort` reproduces; the replacements are also pairwise non-interfering,
so the order does not affect the result. -/
def pass2 (vals : List Nat) (ans : Text) : Text :=
  vals.foldl (fun a k => pyReplace (citeStr k) (markerStr k) a) ans

/-- The survivor filter (line 288): keep the citations whose 1-based
position occurs in the set of numbers present in the rewritten answer. -/
def filterByIndex (cits : List Citation) (keep : List Nat) : List Citation :=
  ((cits.enumFrom 1).filter (fun p => keep.contains p.fst)).map Prod.snd

/-- The consecutive renumbering map (lines 293-295):
`final_mapping[old_pos] = new_pos` for `new_pos, old_pos` in
`enumerate(sorted(final_cited_numbers), start=1)`, as an association list in
insertion order (old ascending, new = 1, 2, ...). -/
def buildFinalMapping (finalCited : List Nat) : List (Nat × Nat) :=
  (finalCited.enumFrom 1).map (fun p => (p.snd, p.fst))

/-- The citation-resolution stage of chat_service.py (`chat`, lines
221-304), parameterised by the fixed rejection message so that the
identical logic of `generate_with_model` (lines 414-492) is covered by the
same definition.  Input: the retrieved chunks and the raw generated answer;
output: the final answer text and the citation list. -/
def resolveCitationsWith (rejection : Text) (chunks : List RChunk) (answer : Text) :
    Text × List Citation :=
  if hasInsufficientInfo answer then
    (pyStrip (removeMarkers answer), [])
  else
    let cited := dedupSort (extractAll answer)
    if cited.isEmpty then (rejection, [])
    else
      let st := dedupFold chunks cited
      let ans1 := pass1 st.mapping cited.reverse answer
      let ans2 := pass2 (dedupSort (st.mapping.map Prod.snd)) ans1
      let finalCited := dedupSort (extractAll ans2)
      let citations2 := filterByIndex st.citations finalCited
      if finalCited ≠ [] ∧ finalCited ≠ List.range' 1 citations2.length then
        let fm := buildFinalMapping finalCited
        let ans3 := fm.reverse.foldl
          (fun a p => pyReplace (markerStr p.fst) (finalStr p.snd) a) ans2
        let ans4 := (fm.map Prod.snd).foldl
          (fun a k => pyReplace (finalStr k) (markerStr k) a) ans3
        (ans4, citations2)
      else (ans2, citations2)

/-- The fixed anti-hallucination rejection text of the `/chat` endpoint. -/
def chatRejectionText : Text :=
  ("The MARP documents provided do not contain information about this topic. Please try asking about MARP regulations, policies, or procedures.").data

/-- The fixed anti-hallucination rejection text of `generate_with_model`. -/
def compareRejectionText : Text :=
  ("The MARP documents provided do not contain information about this topic.").data

/-- The citation-resolution stage of the `/chat` endpoint. -/
def resolveCitations : List RChunk → Text → Text × List Citation :=
  resolveCitationsWith chatRejectionText

/-- The citation-resolution stage of one comparison worker. -/
def resolveCitationsCompare : List RChunk → Text → Text × List Citation :=
  resolveCitationsWith compareRejectionText

/-- The canned empty-retrieval answer of the `/chat` endpoint (line 198). -/
def chatApologyText : Text :=
  ("I couldn't find any relevant information in the MARP documents to answer your question. Please try rephrasing your query.").data

/-- The canned empty-retrieval answer of `/chat/compare` (line 393). -/
def compareApologyText : Text :=
  ("I couldn't find any relevant information in the MARP documents to answer your question.").data

/-- One entry of `config.COMPARISON_MODELS` (id and display name). -/
structure ModelCfg where
  id : Text
  name : Text
deriving DecidableEq

/-- One `ModelComparisonResult` of the comparison endpoint. -/
structure ModelResult where
  model_id : Text
  model_name : Text
  answer : Text
  citations : List Citation
deriving DecidableEq

/-- The `/chat` endpoint from the point where retrieval has returned
(chat_service.py lines 194-331), with the generator call modelled as an
`Except` value: empty retrieval returns the canned apology without
consulting the generator; otherwise a generator failure propagates (the
endpoint turns it into an HTTP 500) and a generated answer goes through the
citation resolver. -/
def chatAfterRetrieval (chunks : List RChunk) (gen : Except Text Text) :
    Except Text (Text × List Citation) :=
  if chunks.isEmpty then Except.ok (chatApologyText, [])
  else
    match gen with
    | Except.error e => Except.error e
    | Except.ok ans => Except.ok (resolveCitations chunks ans)

/-- The per-model error placeholder of a failed comparison worker. -/
def modelErrorText (m : ModelCfg) : Text :=
  ("Error generating answer with ").data ++ m.name ++ (". Please try again.").data

/-- One comparison worker `generate_with_model` (lines 409-506): a failed
generation is caught and produces an error-text result instead of a
pipeline failure; a generated answer goes through the citation resolver. -/
def generate_with_model (chunks : List RChunk) (m : ModelCfg) (gen : Except Text Text) :
    ModelResult :=
  match gen with
  | Except.error _ => ⟨m.id, m.name, modelErrorText m, []⟩
  | Except.ok ans =>
    let r := resolveCitationsCompare chunks ans
    ⟨m.id, m.name, r.fst, r.snd⟩

/-- The `/chat/compare` endpoint from the point where retrieval has
returned (lines 383-530), for the canonical (configured) model order that
the endpoint restores by sorting after the parallel workers complete:
empty retrieval yields the canned per-model apology results without
consulting any generator. -/
def compare_models (models : List ModelCfg) (chunks : List RChunk)
    (gens : List (Except Text Text)) : List ModelResult :=
  if chunks.isEmpty then
    models.map (fun m => ⟨m.id, m.name, compareApologyText, []⟩)
  else
    (models.zip gens).map (fun p => generate_with_model chunks p.fst p.snd)

/-! The token-window chunker (src/services/indexing/indexing_service.py,
`chunk_document`, lines 255-309).  The tokenizer is a collaborator
(`encode` / `decode`), so the chunker is parameterised by it.  The Python
loop is modelled with explicit fuel and an `Int` start index because the
source performs no parameter validation: for `overlap_tokens ≥ max_tokens`
the loop never terminates, which the fuel version expresses as `none` for
every fuel. -/

/-- The metadata dict attached (as a copy) to every produced chunk. -/
structure PageMeta where
  title : Text
  page : Int
  url : Text
deriving DecidableEq

/-- One produced chunk `{"text": ..., "metadata": metadata.copy()}`. -/
structure DocChunk where
  text : Text
  metadata : PageMeta
deriving DecidableEq

/-- Python list slicing `xs[a:b]` for arbitrary `Int` bounds (negative
indices count from the end, out-of-range bounds are clamped). -/
def pySliceI {τ : Type} (xs : List τ) (a b : Int) : List τ :=
  let len : Int := xs.length
  let a2 := if a < 0 then max (len + a) 0 else min a len
  let b2 := if b < 0 then max (len + b) 0 else min b len
  (xs.drop a2.toNat).take (b2 - a2).toNat

/-- The `while start_idx < len(tokens)` loop of `chunk_document`, with
explicit fuel: each iteration slices `tokens[start : min(start+max, len)]`,
decodes, strips, emits the text when non-empty, and advances `start` by
`max_tokens - overlap_tokens` (Python int arithmetic, hence `Int`).
`none` means the fuel ran out before the loop condition became false. -/
def chunkTextsFuel {τ : Type} (dec : List τ → Text) (tokens : List τ)
    (maxTokens overlapTokens : Nat) : Nat → Int → Option (List Text)
  | 0, _ => none
  | Nat.succ fuel, start =>
    if start < (tokens.length : Int) then
      let stop : Int := min (start + (maxTokens : Int)) (tokens.length : Int)
      let t := pyStrip (dec (pySliceI tokens start stop))
      match chunkTextsFuel dec tokens maxTokens overlapTokens fuel
          (start + (maxTokens : Int) - (overlapTokens : Int)) with
      | none => none
      | some rest => some (if t.isEmpty then rest else t :: rest)
    else some []

/-- `chunk_document(text, metadata, max_tokens, overlap_tokens)`: tokenize,
run the sliding-window loop from start 0, attach a copy of the metadata to
every emitted chunk. -/
def chunk_document {τ : Type} (enc : Text → List τ) (dec : List τ → Text) (text : Text)
    (metadata : PageMeta) (maxTokens overlapTokens fuel : Nat) : Option (List DocChunk) :=
  (chunkTextsFuel dec (enc text) maxTokens overlapTokens fuel 0).map
    (fun l => l.map (fun t => ⟨t, metadata⟩))

/-- Helper for `chunkWindows` with explicit fuel (structural recursion);
fuel `L - start` always suffices, because each iteration advances the start
by at least one. -/
def chunkWindowsAux (L maxTokens step : Nat) : Nat → Nat → List (Nat × Nat)
  | 0, _ => []
  | fuel + 1, start =>
    if 0 < step ∧ start < L then
      (start, min (start + maxTokens) L) :: chunkWindowsAux L maxTokens step fuel (start + step)
    else []

/-- The token-index windows `[start, min(start+maxTokens, L))` visited by
the loop for a positive step, in visit order. -/
def chunkWindows (L maxTokens step start : Nat) : List (Nat × Nat) :=
  chunkWindowsAux L maxTokens step (L - start) start

/-- A trivial concrete tokenizer (token type `Char`, encode = decode = id),
used to evaluate the chunker on concrete inputs; the source's tokenizer is
collaborator-supplied and the claims quantify over it. -/
def encId : Text → List Char := fun s => s

/-- Decoder of the trivial concrete tokenizer. -/
def decId : List Char → Text := fun s => s

/-! The prompt context builder (src/services/chat/prompt_templates.py). -/

/-- `estimate_tokens`: length divided by 4 (integer division). -/
def estimate_tokens (t : Text) : Nat := t.length / 4

/-- The f-string `f"[{idx}] Source: {title} - Page {page}\n{text}"`.  The
retrieval service always supplies the `title`, `page` and `text` keys, so
the `.get` defaults of the source are never taken. -/
def formatChunk (idx : Nat) (c : RChunk) : Text :=
  '[' :: natDigits idx ++ ("] Source: ").data ++ c.title ++ (" - Page ").data ++
    intRepr c.page ++ '\n' :: c.text

/-- The separator `"\n\n---\n\n"` between included chunks. -/
def ragSep : Text := ("\n\n---\n\n").data

/-- The loop of `build_rag_context` (lines 39-51): iterate chunks in rank
order with 1-based numbering, stop (break) at the first chunk whose
estimated tokens would push the running total over the budget. -/
def ragLoop (maxT : Nat) : List RChunk → Nat → Nat → List Text
  | [], _, _ => []
  | c :: rest, idx, cur =>
    let ct := formatChunk idx c
    let tk := estimate_tokens ct
    if maxT < cur + tk then []
    else ct :: ragLoop maxT rest (idx + 1) (cur + tk)

/-- Python `sep.join(parts)`. -/
def joinSep (sep : Text) : List Text → Text
  | [] => []
  | [t] => t
  | t :: u :: rest => t ++ sep ++ joinSep sep (u :: rest)

/-- `build_rag_context(chunks, max_tokens)`. -/
def build_rag_context (chunks : List RChunk) (maxContextTokens : Nat) : Text :=
  joinSep ragSep (ragLoop maxContextTokens chunks 1 0)

/-- Total estimated tokens of the first `m` rank-numbered formatted chunks;
used to state the greedy budget property of `build_rag_context`. -/
def ragTokenSum (chunks : List RChunk) (m : Nat) : Nat :=
  (((chunks.enumFrom 1).take m).map (fun p => estimate_tokens (formatChunk p.fst p.snd))).sum

/-! A symbolic decomposition of answer texts, used to state and prove the
resolver's renumbering properties: an answer is a concatenation of plain
segments, citation markers `[n]` and placeholders.  A segment is
well-formed when it contains no bracket and no `<`; a raw generator answer
is a concatenation of well-formed segments and markers. -/

/-- One piece of a decomposed answer text. -/
inductive Piece where
  | txt : Text → Piece
  | mark : Nat → Piece
  | cite : Nat → Piece
  | fnl : Nat → Piece
deriving DecidableEq

/-- The literal text of a piece. -/
def Piece.flat : Piece → Text
  | txt s => s
  | mark n => markerStr n
  | cite k => citeStr k
  | fnl k => finalStr k

/-- Concatenation of the pieces' texts. -/
def flatten (ps : List Piece) : Text := (ps.map Piece.flat).join

/-- A segment character: not a bracket and not `<`. -/
def segCharOk (c : Char) : Bool := !(c = '[' || c = ']' || c = '<')

/-- Well-formedness of one piece (only segments are constrained). -/
def Piece.okB : Piece → Bool
  | txt s => s.all segCharOk
  | _ => true

/-- Well-formedness of a decomposition. -/
def piecesOk (ps : List Piece) : Bool := ps.all Piece.okB

/-- Is the piece a segment or a marker (the only pieces a raw generator
answer is built from)? -/
def rawPiece : Piece → Bool
  | .txt _ => true
  | .mark _ => true
  | _ => false

/-- A well-formed raw answer decomposition: segments and markers only. -/
def rawPieces (ps : List Piece) : Bool := ps.all rawPiece && piecesOk ps

/-- The marker numbers of a decomposition, in order. -/
def marksOf (ps : List Piece) : List Nat :=
  ps.filterMap (fun p => match p with | .mark n => some n | _ => none)

/-- The piece-level effect of `pass1`: a marker whose number is among the
processed cited numbers and has a mapping entry becomes a placeholder. -/
def pass1Piece (mapping : List (Nat × Nat)) (olds : List Nat) : Piece → Piece
  | .mark n =>
    if n ∈ olds then
      match mappingLookup mapping n with
      | some k => .cite k
      | none => .mark n
    else .mark n
  | p => p

/-- The piece-level effect of `pass2`: a placeholder whose index is among
the processed values becomes a marker. -/
def pass2Piece (vals : List Nat) : Piece → Piece
  | .cite k => if k ∈ vals then .mark k else .cite k
  | p => p

/-- Concatenation of the segment texts of a decomposition (what remains
after every marker is removed). -/
def segTexts (ps : List Piece) : Text :=
  (ps.filterMap (fun p => match p with | .txt s => some s | _ => none)).join

/-- No `<<FINAL_k>>` placeholder piece occurs (true for every text the
resolver handles before its final renumbering stage). -/
def noFnl (ps : List Piece) : Bool :=
  ps.all (fun q => match q with | .fnl _ => false | _ => true)

/-- The invariant maintained by the deduplication loop once every rank
below `bound` has been processed (for chunks whose title and page are
truthy): every mapping entry binds a processed cited rank to a citation
position in range; every seen key is reachable from some mapping entry;
every processed cited rank has a mapping entry; every citation position is
the value of some mapping entry; and the mapping's keys are distinct. -/
def DedupInv (chunks : List RChunk) (cited : List Nat) (bound : Nat) (st : DState) : Prop :=
  (∀ p, p ∈ st.mapping →
    p.fst ∈ cited ∧ 1 ≤ p.fst ∧ p.fst < bound ∧ 1 ≤ p.snd ∧ p.snd ≤ st.citations.length) ∧
  (∀ k, k ∈ st.seen → ∃ p, p ∈ st.mapping ∧ chunkKeyAt chunks p.fst = some k) ∧
  (∀ j, j ∈ cited → 1 ≤ j → j < bound → ∃ v, mappingLookup st.mapping j = some v) ∧
  (∀ v, 1 ≤ v → v ≤ st.citations.length → ∃ p, p ∈ st.mapping ∧ p.snd = v) ∧
  (st.mapping.map Prod.fst).Nodup

/-! Theorems. -/

/-- A decimal digit character is a digit. -/
theorem char_digit_isDigit (d : Nat) (h : d < 10) : (Char.ofNat (48 + d)).isDigit = true := by
  interval_cases d <;> decide

/-- Code point of a decimal digit character. -/
theorem char_digit_toNat (d : Nat) (h : d < 10) : (Char.ofNat (48 + d)).toNat = 48 + d := by
  interval_cases d <;> decide

/-- Every character of `natDigitsAux` is a digit. -/
theorem natDigitsAux_digits :
    ∀ fuel m, m < fuel → ∀ c ∈ natDigitsAux fuel m, c.isDigit = true := by
  intro fuel
  induction fuel with
  | zero => intro m h; omega
  | succ f ih =>
    intro m h c hc
    by_cases hm : m < 10
    · simp only [natDigitsAux, if_pos hm, List.mem_singleton] at hc
      subst hc
      exact char_digit_isDigit m hm
    · simp only [natDigitsAux, if_neg hm] at hc
      rcases List.mem_append.mp hc with h1 | h1
      · exact ih (m / 10) (by omega) c h1
      · rw [List.mem_singleton] at h1
        subst h1
        exact char_digit_isDigit _ (Nat.mod_lt _ (by omega))

/-- Every character of `natDigits n` is a digit. -/
theorem natDigits_digits (n : Nat) : ∀ c ∈ natDigits n, c.isDigit = true :=
  natDigitsAux_digits (n + 1) n (by omega)

/-- The digit string of a natural number is non-empty. -/
theorem natDigits_ne_nil (n : Nat) : natDigits n ≠ [] := by
  unfold natDigits natDigitsAux
  by_cases hm : n < 10
  · simp [if_pos hm]
  · simp [if_neg hm]

/-- A character with `isDigit = false` never occurs in a digit string. -/
theorem not_mem_natDigits {c : Char} (h : c.isDigit = false) (n : Nat) :
    c ∉ natDigits n := by
  intro hc
  have hd := natDigits_digits n c hc
  rw [h] at hd
  exact Bool.false_ne_true hd

/-- Folding one more digit. -/
theorem digitsToNat_append_digit (l : Text) (c : Char) :
    digitsToNat (l ++ [c]) = digitsToNat l * 10 + (c.toNat - 48) := by
  simp [digitsToNat, List.foldl_append]

/-- `digitsToNat` inverts `natDigitsAux` whenever the fuel suffices. -/
theorem digitsToNat_natDigitsAux :
    ∀ fuel m, m < fuel → digitsToNat (natDigitsAux fuel m) = m := by
  intro fuel
  induction fuel with
  | zero => intro m h; omega
  | succ f ih =>
    intro m h
    by_cases hm : m < 10
    · simp only [natDigitsAux, if_pos hm]
      simp [digitsToNat, char_digit_toNat m hm]
    · simp only [natDigitsAux, if_neg hm]
      rw [digitsToNat_append_digit, ih (m / 10) (by omega),
        char_digit_toNat (m % 10) (Nat.mod_lt _ (by omega))]
      omega

/-- `digitsToNat` inverts `natDigits`: `int(str(n)) = n`. -/
theorem digitsToNat_natDigits (n : Nat) : digitsToNat (natDigits n) = n :=
  digitsToNat_natDigitsAux (n + 1) n (by omega)

/-- Distinct numbers have distinct digit strings. -/
theorem natDigits_inj {a b : Nat} (h : natDigits a = natDigits b) : a = b := by
  have ha := digitsToNat_natDigits a
  rw [h, digitsToNat_natDigits b] at ha
  exact ha.symm

/-- The empty list is a Boolean prefix of everything. -/
theorem nil_isPrefixOf (t : Text) : ([] : Text).isPrefixOf t = true := by
  cases t <;> rfl

/-- A singleton is a Boolean prefix of any list starting with it. -/
theorem single_isPrefixOf_cons (c : Char) (t : Text) : [c].isPrefixOf (c :: t) = true := by
  show (c == c && ([] : Text).isPrefixOf t) = true
  rw [beq_self_eq_true, Bool.true_and, nil_isPrefixOf]

/-- Removing a shared prefix does not change the Boolean prefix test. -/
theorem isPrefixOf_append_same :
    ∀ (pre a b : Text), (pre ++ a).isPrefixOf (pre ++ b) = a.isPrefixOf b := by
  intro pre
  induction pre with
  | nil => intro a b; rfl
  | cons c p ih =>
    intro a b
    show (c == c && (p ++ a).isPrefixOf (p ++ b)) = a.isPrefixOf b
    rw [beq_self_eq_true, Bool.true_and, ih]

/-- A list is a Boolean prefix of itself followed by anything. -/
theorem isPrefixOf_self_append : ∀ (a t : Text), a.isPrefixOf (a ++ t) = true := by
  intro a
  induction a with
  | nil => intro t; cases t <;> rfl
  | cons c p ih =>
    intro t
    show (c == c && p.isPrefixOf (p ++ t)) = true
    rw [beq_self_eq_true, Bool.true_and, ih]

/-- Prefix test for a digit group terminated by a fixed non-digit
character: the groups must agree exactly, and the test continues after the
terminator. -/
theorem isPrefixOf_digits_sep :
    ∀ (ds1 ds2 : Text), (∀ c ∈ ds1, c.isDigit = true) → (∀ c ∈ ds2, c.isDigit = true) →
      ∀ (q : Char), q.isDigit = false → ∀ (s1 s2 : Text),
      ((ds1 ++ q :: s1).isPrefixOf (ds2 ++ q :: s2) = true) ↔
        (ds1 = ds2 ∧ s1.isPrefixOf s2 = true) := by
  intro ds1
  induction ds1 with
  | nil =>
    intro ds2 h1 h2 q hq s1 s2
    cases ds2 with
    | nil =>
      show ((q == q && s1.isPrefixOf s2) = true) ↔ _
      rw [beq_self_eq_true, Bool.true_and]
      simp
    | cons d r =>
      have hqd : q ≠ d := by
        intro he
        rw [he, h2 d (List.mem_cons_self d r)] at hq
        exact Bool.noConfusion hq
      show ((q == d && _) = true) ↔ _
      rw [beq_eq_false_iff_ne.mpr hqd]
      simp
  | cons d1 r1 ih =>
    intro ds2 h1 h2 q hq s1 s2
    cases ds2 with
    | nil =>
      have hqd : d1 ≠ q := by
        intro he
        rw [← he, h1 d1 (List.mem_cons_self d1 r1)] at hq
        exact Bool.noConfusion hq
      show ((d1 == q && _) = true) ↔ _
      rw [beq_eq_false_iff_ne.mpr hqd]
      simp
    | cons d2 r2 =>
      by_cases hd : d1 = d2
      · subst hd
        show ((d1 == d1 && (r1 ++ q :: s1).isPrefixOf (r2 ++ q :: s2)) = true) ↔ _
        rw [beq_self_eq_true, Bool.true_and,
          ih r2 (fun c hc => h1 c (List.mem_cons_of_mem _ hc))
            (fun c hc => h2 c (List.mem_cons_of_mem _ hc)) q hq s1 s2]
        simp
      · show ((d1 == d2 && _) = true) ↔ _
        rw [beq_eq_false_iff_ne.mpr hd]
        simp [hd]

/-- A marker string is a Boolean prefix of another marker string (plus any
continuation) exactly when the numbers agree. -/
theorem markerStr_isPrefixOf_marker (o n : Nat) (t : Text) :
    ((markerStr o).isPrefixOf (markerStr n ++ t) = true) ↔ o = n := by
  show ((('[' :: (natDigits o ++ [']'])).isPrefixOf
    (('[' :: (natDigits n ++ [']'])) ++ t)) = true) ↔ o = n
  have hshape : (('[' :: (natDigits n ++ [']'])) ++ t) = '[' :: (natDigits n ++ (']' :: t)) := by
    simp
  rw [hshape]
  have hstrip : (('[' :: (natDigits o ++ [']'])).isPrefixOf
      ('[' :: (natDigits n ++ (']' :: t)))) =
      ((natDigits o ++ [']']).isPrefixOf (natDigits n ++ (']' :: t))) := by
    show (('[' == '[') && _) = _
    rw [beq_self_eq_true, Bool.true_and]
  rw [hstrip]
  have hsep := isPrefixOf_digits_sep (natDigits o) (natDigits n) (natDigits_digits o)
    (natDigits_digits n) ']' (by decide) [] t
  constructor
  · intro h
    obtain ⟨he, _⟩ := hsep.mp h
    exact natDigits_inj he
  · intro h
    subst h
    exact hsep.mpr ⟨rfl, nil_isPrefixOf t⟩

/-- A `<<CITE_j>>` placeholder is a Boolean prefix of `<<CITE_k>>` (plus
any continuation) exactly when the indices agree. -/
theorem citeStr_isPrefixOf_cite (j k : Nat) (t : Text) :
    ((citeStr j).isPrefixOf (citeStr k ++ t) = true) ↔ j = k := by
  have e1 : citeStr j = ("<<CITE_").data ++ (natDigits j ++ ('>' :: [('>' : Char)])) := by
    show ("<<CITE_").data ++ natDigits j ++ (">>").data = _
    rw [show ((">>").data : Text) = ['>', '>'] from rfl, List.append_assoc]
  have e2 : citeStr k ++ t = ("<<CITE_").data ++ (natDigits k ++ ('>' :: ('>' :: t))) := by
    show (("<<CITE_").data ++ natDigits k ++ (">>").data) ++ t = _
    rw [show ((">>").data : Text) = ['>', '>'] from rfl, List.append_assoc,
      List.append_assoc]
    rfl
  rw [e1, e2, isPrefixOf_append_same]
  have hsep := isPrefixOf_digits_sep (natDigits j) (natDigits k) (natDigits_digits j)
    (natDigits_digits k) '>' (by decide) [('>' : Char)] ('>' :: t)
  rw [hsep]
  constructor
  · intro h
    exact natDigits_inj h.1
  · intro h
    subst h
    exact ⟨rfl, single_isPrefixOf_cons '>' t⟩

/-- A `<<FINAL_j>>` placeholder is a Boolean prefix of `<<FINAL_k>>` (plus
any continuation) exactly when the indices agree. -/
theorem finalStr_isPrefixOf_final (j k : Nat) (t : Text) :
    ((finalStr j).isPrefixOf (finalStr k ++ t) = true) ↔ j = k := by
  have e1 : finalStr j = ("<<FINAL_").data ++ (natDigits j ++ ('>' :: [('>' : Char)])) := by
    show ("<<FINAL_").data ++ natDigits j ++ (">>").data = _
    rw [show ((">>").data : Text) = ['>', '>'] from rfl, List.append_assoc]
  have e2 : finalStr k ++ t = ("<<FINAL_").data ++ (natDigits k ++ ('>' :: ('>' :: t))) := by
    show (("<<FINAL_").data ++ natDigits k ++ (">>").data) ++ t = _
    rw [show ((">>").data : Text) = ['>', '>'] from rfl, List.append_assoc,
      List.append_assoc]
    rfl
  rw [e1, e2, isPrefixOf_append_same]
  have hsep := isPrefixOf_digits_sep (natDigits j) (natDigits k) (natDigits_digits j)
    (natDigits_digits k) '>' (by decide) [('>' : Char)] ('>' :: t)
  rw [hsep]
  constructor
  · intro h
    exact natDigits_inj h.1
  · intro h
    subst h
    exact ⟨rfl, single_isPrefixOf_cons '>' t⟩

/-- C6: whenever the retriever returns zero chunks, the single-answer
endpoint returns the canned apology with empty citations for every possible
generator outcome (so the generator is never consulted and no failure is
raised), and the comparison endpoint likewise returns the canned per-model
apology results for every configured model list and all generator
outcomes. -/
theorem empty_retrieval_never_error :
    (∀ gen, chatAfterRetrieval [] gen = Except.ok (chatApologyText, [])) ∧
    (∀ g1 g2, chatAfterRetrieval [] g1 = chatAfterRetrieval [] g2) ∧
    (∀ (models : List ModelCfg) (gens : List (Except Text Text)),
      compare_models models [] gens =
        models.map (fun m => ⟨m.id, m.name, compareApologyText, []⟩)) :=
  ⟨fun _ => rfl, fun _ _ => rfl, fun _ _ => rfl⟩

/-- C7: for every answer whose first 150 lowercased characters contain one
of the fixed insufficient-information phrases, the resolver (of either
endpoint, i.e. for any rejection text) returns the answer with all `[n]`
markers removed and stripped, and an empty citation list. -/
theorem insufficient_info_strips_markers (rej : Text) (chunks : List RChunk) (ans : Text)
    (h : hasInsufficientInfo ans = true) :
    resolveCitationsWith rej chunks ans = (pyStrip (removeMarkers ans), []) := by
  simp [resolveCitationsWith, h]

/-- Witness for C7 at a concrete answer containing "cannot answer". -/
theorem insufficient_info_strips_markers_witness :
    resolveCitationsWith chatRejectionText [] (("I cannot answer that [3].").data) =
      (pyStrip (removeMarkers (("I cannot answer that [3].").data)), []) :=
  insufficient_info_strips_markers chatRejectionText [] (("I cannot answer that [3].").data)
    (by decide)

/-- C8: for every answer that does not trigger the phrase check and
contains no `[n]` marker at all, the `/chat` resolver discards the answer
and returns the fixed rejection text with an empty citation list. -/
theorem hallucination_rejected (chunks : List RChunk) (ans : Text)
    (h1 : hasInsufficientInfo ans = false) (h2 : extractAll ans = []) :
    resolveCitations chunks ans = (chatRejectionText, []) := by
  simp [resolveCitations, resolveCitationsWith, h1, h2, dedupSort]

/-- Witness for C8 at a concrete citation-free answer. -/
theorem hallucination_rejected_witness :
    resolveCitations [⟨("A").data, 1, ("u").data, ("t").data⟩] (("Hello there.").data) =
      (chatRejectionText, []) :=
  hallucination_rejected _ _ (by decide) (by decide)

/-- C2: on the chunks [(rank 1: A, page 1), (rank 2: B, page 2),
(rank 3: A, page 1)] and the raw answer "Fact one [1]. Fact two [3].", the
resolver returns exactly one citation (A, page 1) and the text
"Fact one [1]. Fact two [1]." (so `[1]` twice, no `[2]` or `[3]`); and in
general a deduplication step for a cited rank whose key was already seen
appends a mapping entry carrying the earlier citation's number (the first
mapping entry with the same chunk key) and creates no new citation. -/
theorem dedup_collapses_to_earlier_citation :
    (resolveCitations
        [⟨("A").data, 1, ("u1").data, ("t1").data⟩,
         ⟨("B").data, 2, ("u2").data, ("t2").data⟩,
         ⟨("A").data, 1, ("u3").data, ("t3").data⟩]
        (("Fact one [1]. Fact two [3].").data) =
      ((("Fact one [1]. Fact two [1].").data), [⟨("A").data, 1, ("u1").data⟩])) ∧
    (∀ (chunks : List RChunk) (cited : List Nat) (st : DState) (idx : Nat) (c : RChunk)
        (q : Nat × Nat),
      idx ∈ cited → keyOf c ∈ st.seen →
      st.mapping.find? (fun p => chunkKeyAt chunks p.fst == some (keyOf c)) = some q →
      dedupStep chunks cited st idx c = { st with mapping := st.mapping ++ [(idx, q.snd)] }) := by
  constructor
  · decide
  · intro chunks cited st idx c q h1 h2 h3
    simp only [dedupStep, if_pos h1]
    rw [if_neg (by intro hc; exact hc.1 h2), if_pos h2, h3]

/-- C10: a deduplication step for a cited rank whose chunk has an empty
title or page 0 (and whose key is not already seen, which is automatic
since only truthy keys are recorded) leaves the state unchanged: no
citation is created and no mapping entry is added; consequently, on the
concrete input of one such chunk and the answer "See [1].", the final text
still contains the unsubstituted marker while the citation list is empty. -/
theorem falsy_key_rank_silently_excluded :
    (∀ (chunks : List RChunk) (cited : List Nat) (st : DState) (idx : Nat) (c : RChunk),
      idx ∈ cited → keyOf c ∉ st.seen → (c.title = [] ∨ c.page = 0) →
      dedupStep chunks cited st idx c = st) ∧
    (resolveCitations [⟨[], 0, ("u").data, ("t").data⟩] (("See [1].").data) =
      ((("See [1].").data), [])) := by
  constructor
  · intro chunks cited st idx c h1 h2 h3
    simp only [dedupStep, if_pos h1]
    rw [if_neg, if_neg h2]
    intro hc
    rcases h3 with h3 | h3
    · exact hc.2.1 h3
    · exact hc.2.2 h3
  · decide

/-- Counterexample to C1 as stated: with the single (valid) chunk
(A, page 1) and the raw answer "Fact [2].", the resolver returns the text
"Fact [1]." with an empty citation list, so the marker set {1} is not
{1, ..., len(citations)} = {} and the invariant fails. -/
theorem citation_invariant_cex :
    dedupSort (extractAll (resolveCitations [⟨("A").data, 1, ("u").data, ("t").data⟩]
        (("Fact [2].").data)).fst) ≠
      List.range' 1 (resolveCitations [⟨("A").data, 1, ("u").data, ("t").data⟩]
        (("Fact [2].").data)).snd.length := by decide

/-- Counterexample to C3 as stated: with maxTokens = 4, overlapTokens = 2
and an 8-token sequence, the loop visits four windows
[0:4], [2:6], [4:8], [6:8], not the claimed three = ceil((8-2)/(4-2)); on
the identity tokenizer over "abcdefgh" the chunker accordingly produces
four chunks. -/
theorem chunk_window_count_cex :
    chunkWindows 8 4 2 0 = [(0, 4), (2, 6), (4, 8), (6, 8)] ∧
    (chunkWindows 8 4 2 0).length ≠ (8 - 2 + (4 - 2) - 1) / (4 - 2) ∧
    chunkTextsFuel decId (("abcdefgh").data) 4 2 9 0 =
      some [("abcd").data, ("cdef").data, ("efgh").data, ("gh").data] := by
  refine ⟨by decide, by decide, by decide⟩

/-- Counterexample to C5 as stated: with maxTokens = 4, overlapTokens = 2
and the identity tokenizer, the 3-token text "abc" satisfies
0 < L = 3 ≤ maxTokens yet chunk_document returns two chunks
("abc" and "c"), not exactly one chunk containing the whole text. -/
theorem single_chunk_claim_cex :
    chunk_document encId decId (("abc").data) ⟨("T").data, 1, ("u").data⟩ 4 2 5 =
      some [⟨("abc").data, ⟨("T").data, 1, ("u").data⟩⟩,
            ⟨("c").data, ⟨("T").data, 1, ("u").data⟩⟩] ∧
    0 < (encId (("abc").data)).length ∧ (encId (("abc").data)).length ≤ 4 := by
  refine ⟨by decide, by decide, by decide⟩

/-- Single-step unfolding of the fuelled sliding-window loop. -/
theorem chunkTextsFuel_succ {τ : Type} (dec : List τ → Text) (tokens : List τ)
    (maxT ov fuel : Nat) (start : Int) :
    chunkTextsFuel dec tokens maxT ov (fuel + 1) start =
      if start < (tokens.length : Int) then
        match chunkTextsFuel dec tokens maxT ov fuel
            (start + (maxT : Int) - (ov : Int)) with
        | none => none
        | some rest =>
          some
            (if (pyStrip (dec (pySliceI tokens start
                (min (start + (maxT : Int)) (tokens.length : Int))))).isEmpty then rest
             else pyStrip (dec (pySliceI tokens start
                (min (start + (maxT : Int)) (tokens.length : Int)))) :: rest)
      else some [] := rfl

/-- The sliding-window loop terminates whenever the step is positive: fuel
one more than the token count always suffices. -/
theorem chunkTextsFuel_isSome {τ : Type} (dec : List τ → Text) (tokens : List τ)
    (maxT ov : Nat) (hov : ov < maxT) :
    ∀ (n : Nat) (start : Int), (tokens.length : Int) ≤ start + n →
      (chunkTextsFuel dec tokens maxT ov (n + 1) start).isSome = true := by
  intro n
  induction n with
  | zero =>
    intro start h
    rw [chunkTextsFuel_succ, if_neg (by omega)]
    rfl
  | succ n ih =>
    intro start h
    rw [chunkTextsFuel_succ]
    by_cases hc : start < (tokens.length : Int)
    · rw [if_pos hc]
      have hrec := ih (start + (maxT : Int) - (ov : Int)) (by omega)
      obtain ⟨r, hr⟩ := Option.isSome_iff_exists.mp hrec
      rw [hr]
      simp
    · rw [if_neg hc]
      rfl

/-- C4 (the code side): the chunker performs no parameter validation.  With
overlapTokens = maxTokens (step 0) on a non-empty token sequence the loop
never terminates — the fuelled embedding returns `none` for every fuel —
while under the precondition 0 < overlapTokens < maxTokens it terminates
for every tokenizer and every input. -/
theorem chunker_overlap_validation :
    (∀ fuel, chunkTextsFuel decId (("x").data) 4 4 fuel 0 = none) ∧
    (∀ (τ : Type) (dec : List τ → Text) (tokens : List τ) (maxT ov : Nat),
      0 < ov → ov < maxT →
      ∃ r, chunkTextsFuel dec tokens maxT ov (tokens.length + 1) 0 = some r) := by
  constructor
  · intro fuel
    induction fuel with
    | zero => rfl
    | succ n ih =>
      rw [chunkTextsFuel_succ, if_pos (by decide)]
      have harg : (0 : Int) + ((4 : Nat) : Int) - ((4 : Nat) : Int) = 0 := by norm_num
      rw [harg, ih]
  · intro τ dec tokens maxT ov h1 h2
    exact Option.isSome_iff_exists.mp
      (chunkTextsFuel_isSome dec tokens maxT ov h2 tokens.length 0 (by omega))

/-- Single-step unfolding of the window list. -/
theorem chunkWindowsAux_succ (L maxT step fuel start : Nat) :
    chunkWindowsAux L maxT step (fuel + 1) start =
      if 0 < step ∧ start < L then
        (start, min (start + maxT) L) :: chunkWindowsAux L maxT step fuel (start + step)
      else [] := rfl

/-- The window list does not depend on the fuel once the fuel is large
enough. -/
theorem chunkWindowsAux_fuel (L maxT step : Nat) (hstep : 0 < step) :
    ∀ f1 f2 start, L ≤ start + f1 → L ≤ start + f2 →
      chunkWindowsAux L maxT step f1 start = chunkWindowsAux L maxT step f2 start := by
  intro f1
  induction f1 with
  | zero =>
    intro f2 start h1 h2
    cases f2 with
    | zero => rfl
    | succ m =>
      rw [chunkWindowsAux_succ, if_neg]
      · rfl
      · intro hc
        omega
  | succ n ih =>
    intro f2 start h1 h2
    cases f2 with
    | zero =>
      rw [chunkWindowsAux_succ, if_neg]
      · rfl
      · intro hc
        omega
    | succ m =>
      rw [chunkWindowsAux_succ, chunkWindowsAux_succ]
      by_cases hc : 0 < step ∧ start < L
      · rw [if_pos hc, if_pos hc, ih m (start + step) (by omega) (by omega)]
      · rw [if_neg hc, if_neg hc]

/-- With a positive step, the loop visits exactly
`ceil((L - start) / step) = (L - start + step - 1) / step` windows. -/
theorem chunkWindowsAux_length (L maxT step : Nat) (hstep : 0 < step) :
    ∀ fuel start, L ≤ start + fuel →
      (chunkWindowsAux L maxT step fuel start).length = (L - start + step - 1) / step := by
  intro fuel
  induction fuel with
  | zero =>
    intro start h
    have hd : L - start = 0 := by omega
    simp only [chunkWindowsAux, List.length_nil, hd, Nat.zero_add]
    exact (Nat.div_eq_of_lt (by omega)).symm
  | succ n ih =>
    intro start h
    by_cases hc : start < L
    · rw [chunkWindowsAux_succ, if_pos ⟨hstep, hc⟩]
      simp only [List.length_cons]
      rw [ih (start + step) (by omega)]
      have hds : L - (start + step) = (L - start) - step := by omega
      rw [hds]
      have hd1 : 1 ≤ L - start := by omega
      by_cases hcase : step ≤ L - start
      · have e1 : L - start - step + step - 1 = L - start - 1 := by omega
        have e2 : L - start + step - 1 = (L - start - 1) + step := by omega
        rw [e1, e2, Nat.add_div_right _ hstep]
      · have e1 : L - start - step = 0 := by omega
        rw [e1]
        have l1 : (0 + step - 1) / step = 0 := Nat.div_eq_of_lt (by omega)
        have l2 : (L - start + step - 1) / step = 1 := by
          apply Nat.div_eq_of_lt_le
          · omega
          · omega
        rw [l1, l2]
    · rw [chunkWindowsAux_succ, if_neg (fun hcc => hc hcc.2)]
      have hd : L - start = 0 := by omega
      simp only [List.length_nil, hd, Nat.zero_add]
      exact (Nat.div_eq_of_lt (by omega)).symm

/-- With `0 < step ≤ maxTokens`, the union of the visited windows covers
every token index in `[start, L)`. -/
theorem chunkWindowsAux_cover (L maxT step : Nat) (hstep : 0 < step) (hsm : step ≤ maxT) :
    ∀ fuel start i, L ≤ start + fuel → start ≤ i → i < L →
      ∃ p, p ∈ chunkWindowsAux L maxT step fuel start ∧ p.fst ≤ i ∧ i < p.snd := by
  intro fuel
  induction fuel with
  | zero =>
    intro start i h h1 h2
    exact absurd h2 (by omega)
  | succ n ih =>
    intro start i h h1 h2
    rw [chunkWindowsAux_succ, if_pos ⟨hstep, by omega⟩]
    by_cases hci : i < start + step
    · refine ⟨(start, min (start + maxT) L), List.mem_cons_self _ _, h1, ?_⟩
      simp only
      omega
    · obtain ⟨p, hp, hpi⟩ := ih (start + step) i (by omega) (by omega) h2
      exact ⟨p, List.mem_cons_of_mem _ hp, hpi⟩

/-- With a positive step, the fuelled loop computes exactly the decoded,
stripped, non-empty window texts, one per visited window in order. -/
theorem chunkTexts_eq_windows {τ : Type} (dec : List τ → Text) (tokens : List τ)
    (maxT ov : Nat) (hov : ov < maxT) :
    ∀ (n start : Nat), tokens.length ≤ start + n →
      chunkTextsFuel dec tokens maxT ov (n + 1) (start : Int) =
        some (((chunkWindowsAux tokens.length maxT (maxT - ov) (n + 1) start).map
          (fun p => pyStrip (dec (pySliceI tokens (p.fst : Int) (p.snd : Int))))).filter
            (fun t => !t.isEmpty)) := by
  intro n
  induction n with
  | zero =>
    intro start h
    rw [chunkTextsFuel_succ, if_neg (by exact_mod_cast by omega),
      chunkWindowsAux_succ, if_neg (fun hc => by omega)]
    rfl
  | succ n ih =>
    intro start h
    by_cases hc : start < tokens.length
    · rw [chunkTextsFuel_succ, if_pos (show (start : Int) < (tokens.length : Int) by
        exact_mod_cast hc)]
      have hcast : (start : Int) + (maxT : Int) - (ov : Int) =
          ((start + (maxT - ov) : Nat) : Int) := by
        push_cast [Nat.cast_sub (Nat.le_of_lt hov)]
        ring
      rw [hcast, ih (start + (maxT - ov)) (by omega)]
      rw [chunkWindowsAux_succ tokens.length maxT (maxT - ov) (n + 1) start,
        if_pos (show 0 < maxT - ov ∧ start < tokens.length from ⟨by omega, hc⟩)]
      have hslice : pySliceI tokens (start : Int)
            (min ((start : Int) + (maxT : Int)) ((tokens.length : Nat) : Int)) =
          pySliceI tokens (start : Int) (((min (start + maxT) tokens.length : Nat)) : Int) := by
        congr 1
        push_cast
        rfl
      simp only [List.map_cons, List.filter_cons, hslice]
      by_cases he : (pyStrip (dec (pySliceI tokens (start : Int)
          (((min (start + maxT) tokens.length : Nat)) : Int)))).isEmpty
      · simp [he]
      · simp [he]
    · rw [chunkTextsFuel_succ, if_neg (by exact_mod_cast hc),
        chunkWindowsAux_succ, if_neg (fun hcc => hc hcc.2)]
      rfl

/-- Python slicing for non-negative in-range bounds is drop-then-take. -/
theorem pySliceI_nonneg {τ : Type} (tokens : List τ) (a b : Int) (ha : 0 ≤ a)
    (hb : 0 ≤ b) (hal : a ≤ (tokens.length : Int)) (hbl : b ≤ (tokens.length : Int)) :
    pySliceI tokens a b = (tokens.drop a.toNat).take (b - a).toNat := by
  simp only [pySliceI]
  rw [if_neg (by omega), if_neg (by omega), min_eq_left hal, min_eq_left hbl]

/-- When the whole token sequence fits in one window, the first slice is
the whole sequence. -/
theorem pySliceI_all {τ : Type} (tokens : List τ) (maxT : Nat) (h : tokens.length ≤ maxT) :
    pySliceI tokens (0 : Int) (min ((0 : Int) + (maxT : Int)) ((tokens.length : Int))) =
      tokens := by
  rw [pySliceI_nonneg tokens 0 _ (by omega) (by omega) (by omega) (by omega)]
  have hb : (min ((0 : Int) + (maxT : Int)) ((tokens.length : Int)) - 0).toNat =
      tokens.length := by omega
  rw [hb, Int.toNat_zero, List.drop_zero, List.take_length]

/-- C3 (amended): for every tokenizer, every token sequence of length
L > maxTokens and every 0 < overlapTokens < maxTokens (step =
maxTokens - overlapTokens), the loop emits exactly the decoded, stripped,
non-empty texts of the visited windows; the number of visited windows is
ceil(L / step) = (L + step - 1) / step — not ceil((L - overlapTokens) /
step) as claimed — and the union of the windows covers [0, L). -/
theorem chunk_window_count_amended {τ : Type} (dec : List τ → Text) (tokens : List τ)
    (maxT ov : Nat) (h1 : 0 < ov) (h2 : ov < maxT) (h3 : maxT < tokens.length) :
    chunkTextsFuel dec tokens maxT ov (tokens.length + 1) 0 =
      some (((chunkWindows tokens.length maxT (maxT - ov) 0).map
        (fun p => pyStrip (dec (pySliceI tokens (p.fst : Int) (p.snd : Int))))).filter
          (fun t => !t.isEmpty)) ∧
    (chunkWindows tokens.length maxT (maxT - ov) 0).length =
      (tokens.length + (maxT - ov) - 1) / (maxT - ov) ∧
    (∀ i, i < tokens.length → ∃ p, p ∈ chunkWindows tokens.length maxT (maxT - ov) 0 ∧
      p.fst ≤ i ∧ i < p.snd) := by
  have hstep : 0 < maxT - ov := by omega
  have hchw : chunkWindows tokens.length maxT (maxT - ov) 0 =
      chunkWindowsAux tokens.length maxT (maxT - ov) (tokens.length + 1) 0 := by
    unfold chunkWindows
    rw [Nat.sub_zero]
    exact chunkWindowsAux_fuel _ _ _ hstep _ _ 0 (by omega) (by omega)
  refine ⟨?_, ?_, ?_⟩
  · rw [hchw]
    have h := chunkTexts_eq_windows dec tokens maxT ov h2 tokens.length 0 (by omega)
    simpa using h
  · rw [hchw]
    have h := chunkWindowsAux_length tokens.length maxT (maxT - ov) hstep
      (tokens.length + 1) 0 (by omega)
    simpa using h
  · intro i hi
    rw [hchw]
    exact chunkWindowsAux_cover tokens.length maxT (maxT - ov) hstep (by omega)
      (tokens.length + 1) 0 i (by omega) (by omega) hi

/-- Witness for C3 (amended) on the 8-token sequence with maxTokens = 4 and
overlapTokens = 2: the window count is ceil(8 / 2) = 4. -/
theorem chunk_window_count_amended_witness :
    (chunkWindows (("abcdefgh").data).length 4 (4 - 2) 0).length =
      ((("abcdefgh").data).length + (4 - 2) - 1) / (4 - 2) :=
  (chunk_window_count_amended decId (("abcdefgh").data) 4 2 (by decide) (by decide)
    (by decide)).2.1

/-- C5 (amended): with 0 < L ≤ maxTokens - overlapTokens (not merely
L ≤ maxTokens, on which the claim fails) the chunker emits exactly one
chunk whose text is the stripped decoding of the whole token sequence
(none when that decoding is whitespace-only); an empty token sequence
yields zero chunks; and in general the emitted texts are exactly the
decoded, stripped window texts with the whitespace-only ones dropped. -/
theorem chunk_edge_cases_amended {τ : Type} (enc : Text → List τ) (dec : List τ → Text)
    (text : Text) (meta : PageMeta) (maxT ov fuel : Nat) :
    (0 < (enc text).length → (enc text).length ≤ maxT - ov →
      (enc text).length < fuel →
      chunk_document enc dec text meta maxT ov fuel =
        some (if (pyStrip (dec (enc text))).isEmpty then []
              else [⟨pyStrip (dec (enc text)), meta⟩])) ∧
    ((enc text).length = 0 → 0 < fuel →
      chunk_document enc dec text meta maxT ov fuel = some []) ∧
    (∀ (tokens : List τ) (n start : Nat), ov < maxT → tokens.length ≤ start + n →
      chunkTextsFuel dec tokens maxT ov (n + 1) (start : Int) =
        some (((chunkWindowsAux tokens.length maxT (maxT - ov) (n + 1) start).map
          (fun p => pyStrip (dec (pySliceI tokens (p.fst : Int) (p.snd : Int))))).filter
            (fun t => !t.isEmpty))) := by
  refine ⟨?_, ?_, ?_⟩
  · intro hL hstep hfuel
    have hovle : ov ≤ maxT := by omega
    obtain ⟨f, rfl⟩ : ∃ f, fuel = f + 1 := ⟨fuel - 1, by omega⟩
    obtain ⟨g, rfl⟩ : ∃ g, f = g + 1 := ⟨f - 1, by omega⟩
    unfold chunk_document
    rw [chunkTextsFuel_succ,
      if_pos (show (0 : Int) < ((enc text).length : Int) by exact_mod_cast hL),
      chunkTextsFuel_succ, if_neg (by push_cast [Nat.cast_sub hovle] at *; omega),
      pySliceI_all (enc text) maxT (by omega)]
    by_cases he : (pyStrip (dec (enc text))).isEmpty
    · simp [he]
    · simp [he]
  · intro hL hf
    obtain ⟨f, rfl⟩ : ∃ f, fuel = f + 1 := ⟨fuel - 1, by omega⟩
    unfold chunk_document
    rw [chunkTextsFuel_succ, if_neg (by rw [hL]; omega)]
    rfl
  · intro tokens n start h hlen
    exact chunkTexts_eq_windows dec tokens maxT ov h n start hlen

/-- The greedy specification of the `build_rag_context` loop, generalised
over the starting number and the running token total. -/
theorem ragLoop_spec (maxT : Nat) :
    ∀ (l : List RChunk) (idx cur : Nat), ∃ k, k ≤ l.length ∧
      ragLoop maxT l idx cur =
        ((l.enumFrom idx).take k).map (fun p => formatChunk p.fst p.snd) ∧
      (∀ j, j < k →
        cur + (((l.enumFrom idx).take (j + 1)).map
          (fun p => estimate_tokens (formatChunk p.fst p.snd))).sum ≤ maxT) ∧
      (k < l.length →
        maxT < cur + (((l.enumFrom idx).take (k + 1)).map
          (fun p => estimate_tokens (formatChunk p.fst p.snd))).sum) := by
  intro l
  induction l with
  | nil =>
    intro idx cur
    refine ⟨0, by simp, by simp [ragLoop], fun j hj => by omega, fun h => by simp at h⟩
  | cons c rest ih =>
    intro idx cur
    by_cases hover : maxT < cur + estimate_tokens (formatChunk idx c)
    · refine ⟨0, by simp, ?_, fun j hj => by omega, ?_⟩
      · simp only [ragLoop, if_pos hover, List.take_zero, List.map_nil]
      · intro _
        simpa [List.enumFrom] using hover
    · obtain ⟨k, hk, heq, hbud, hstop⟩ := ih (idx + 1) (cur + estimate_tokens (formatChunk idx c))
      refine ⟨k + 1, by simpa using hk, ?_, ?_, ?_⟩
      · simp only [ragLoop, if_neg hover, heq, List.enumFrom, List.take_succ_cons,
          List.map_cons]
      · intro j hj
        cases j with
        | zero =>
          simp only [List.enumFrom, List.take_succ_cons, List.take_zero, List.map_cons,
            List.map_nil, List.sum_cons, List.sum_nil]
          omega
        | succ j =>
          have hb := hbud j (by omega)
          simp only [List.enumFrom, List.take_succ_cons, List.map_cons, List.sum_cons] at hb ⊢
          omega
      · intro hlen
        have hs := hstop (by simpa using hlen)
        simp only [List.enumFrom, List.take_succ_cons, List.map_cons, List.sum_cons] at hs ⊢
        omega

/-- C9: the prompt context is built from a rank-numbered prefix of the
retrieved chunks — each included chunk formatted whole as
"[rank] Source: title - Page page\ntext" with its number equal to its
retrieval rank, tokens estimated as length / 4 — joined by the fixed
separator; every included prefix stays within the budget and the first
excluded chunk (when one exists) would exceed it. -/
theorem rag_context_greedy (chunks : List RChunk) (maxT : Nat) :
    ∃ k, k ≤ chunks.length ∧
      build_rag_context chunks maxT =
        joinSep ragSep (((chunks.enumFrom 1).take k).map (fun p => formatChunk p.fst p.snd)) ∧
      (∀ j, j < k → ragTokenSum chunks (j + 1) ≤ maxT) ∧
      (k < chunks.length → maxT < ragTokenSum chunks (k + 1)) := by
  obtain ⟨k, hk, heq, hbud, hstop⟩ := ragLoop_spec maxT chunks 1 0
  refine ⟨k, hk, by rw [build_rag_context, heq], ?_, ?_⟩
  · intro j hj
    have h := hbud j hj
    simpa [ragTokenSum] using h
  · intro h
    have hs := hstop h
    simpa [ragTokenSum] using hs

/-- Skip mode consumes exactly the skipped characters. -/
theorem raAux_skip (p : Char) (ps rep : Text) :
    ∀ (s t : Text) (j : Nat), raAux p ps rep (s.length + j) (s ++ t) = raAux p ps rep j t := by
  intro s
  induction s with
  | nil =>
    intro t j
    simp
  | cons c r ih =>
    intro t j
    have h1 : (c :: r).length + j = (r.length + j) + 1 := by
      simp [List.length_cons]
      omega
    rw [h1]
    show raAux p ps rep (r.length + j) (r ++ t) = raAux p ps rep j t
    exact ih t j

/-- A replacement at an exact pattern occurrence. -/
theorem replaceAll_exact (p : Char) (ps rep t : Text) :
    replaceAll p ps rep ((p :: ps) ++ t) = rep ++ replaceAll p ps rep t := by
  show (if (p :: ps).isPrefixOf (p :: (ps ++ t)) = true
    then rep ++ raAux p ps rep ps.length (ps ++ t)
    else p :: raAux p ps rep 0 (ps ++ t)) = rep ++ raAux p ps rep 0 t
  have hp : (p :: ps).isPrefixOf (p :: (ps ++ t)) = true := isPrefixOf_self_append (p :: ps) t
  rw [if_pos hp]
  have h := raAux_skip p ps rep ps t 0
  rw [Nat.add_zero] at h
  rw [h]

/-- A non-matching position is copied unchanged. -/
theorem replaceAll_cons_ne (p : Char) (ps rep : Text) {c : Char} (rest : Text)
    (h : (p :: ps).isPrefixOf (c :: rest) = false) :
    replaceAll p ps rep (c :: rest) = c :: replaceAll p ps rep rest := by
  show (if (p :: ps).isPrefixOf (c :: rest) = true then _ else _) = _
  rw [if_neg (show ¬ ((p :: ps).isPrefixOf (c :: rest) = true) from fun hc => by
    rw [h] at hc
    exact Bool.noConfusion hc)]
  rfl

/-- Replacement distributes over a leading segment free of the pattern's
head character. -/
theorem replaceAll_append_out (p : Char) (ps rep : Text) :
    ∀ (s t : Text), p ∉ s →
      replaceAll p ps rep (s ++ t) = s ++ replaceAll p ps rep t := by
  intro s
  induction s with
  | nil => intro t _; rfl
  | cons c r ih =>
    intro t h
    have hc : p ≠ c := fun he => h (he ▸ List.mem_cons_self c r)
    have hpre : (p :: ps).isPrefixOf (c :: (r ++ t)) = false := by
      show (p == c && _) = false
      rw [beq_eq_false_iff_ne.mpr hc, Bool.false_and]
    show replaceAll p ps rep (c :: (r ++ t)) = _
    rw [replaceAll_cons_ne p ps rep (r ++ t) hpre, ih t (fun hm => h (List.mem_cons_of_mem c hm))]
    rfl

/-- The opening bracket does not occur in a digit group plus closer. -/
theorem not_open_marker_tail (n : Nat) : '[' ∉ natDigits n ++ [']'] := by
  intro h
  rcases List.mem_append.mp h with h1 | h1
  · exact not_mem_natDigits (by decide) n h1
  · rw [List.mem_singleton] at h1
    exact absurd h1 (by decide)

/-- The opening bracket does not occur in a `<<CITE_k>>` placeholder. -/
theorem not_open_citeStr (k : Nat) : '[' ∉ citeStr k := by
  intro h
  rcases List.mem_append.mp h with h1 | h1
  · rcases List.mem_append.mp h1 with h2 | h2
    · revert h2
      decide
    · exact not_mem_natDigits (by decide) k h2
  · revert h1
    decide

/-- The opening bracket does not occur in a `<<FINAL_k>>` placeholder. -/
theorem not_open_finalStr (k : Nat) : '[' ∉ finalStr k := by
  intro h
  rcases List.mem_append.mp h with h1 | h1
  · rcases List.mem_append.mp h1 with h2 | h2
    · revert h2
      decide
    · exact not_mem_natDigits (by decide) k h2
  · revert h1
    decide

/-- The character `<` does not occur in a marker string. -/
theorem not_lt_markerStr (n : Nat) : '<' ∉ markerStr n := by
  intro h
  rcases List.mem_cons.mp h with h1 | h1
  · exact absurd h1 (by decide)
  · rcases List.mem_append.mp h1 with h2 | h2
    · exact not_mem_natDigits (by decide) n h2
    · rw [List.mem_singleton] at h2
      exact absurd h2 (by decide)

/-- Replacement with a marker pattern distributes over bracket-free text. -/
theorem pyReplace_marker_out (o : Nat) (rep s t : Text) (h : '[' ∉ s) :
    pyReplace (markerStr o) rep (s ++ t) = s ++ pyReplace (markerStr o) rep t :=
  replaceAll_append_out '[' (natDigits o ++ [']']) rep s t h

/-- Replacing a marker pattern at its own occurrence. -/
theorem pyReplace_marker_match (n : Nat) (rep t : Text) :
    pyReplace (markerStr n) rep (markerStr n ++ t) = rep ++ pyReplace (markerStr n) rep t :=
  replaceAll_exact '[' (natDigits n ++ [']']) rep t

/-- A marker pattern for a different number passes over a marker unchanged. -/
theorem pyReplace_marker_mismatch (o n : Nat) (rep : Text) (h : o ≠ n) (t : Text) :
    pyReplace (markerStr o) rep (markerStr n ++ t) =
      markerStr n ++ pyReplace (markerStr o) rep t := by
  have hpre : (markerStr o).isPrefixOf (markerStr n ++ t) = false :=
    Bool.eq_false_iff.mpr (fun hb => h ((markerStr_isPrefixOf_marker o n t).mp hb))
  show replaceAll '[' (natDigits o ++ [']']) rep ('[' :: ((natDigits n ++ [']']) ++ t)) = _
  rw [replaceAll_cons_ne '[' (natDigits o ++ [']']) rep ((natDigits n ++ [']']) ++ t) hpre,
    replaceAll_append_out '[' (natDigits o ++ [']']) rep (natDigits n ++ [']'])
      t (not_open_marker_tail n)]
  rfl

/-- Replacement with a `<<CITE_k>>` pattern distributes over text free of
the character `<`. -/
theorem pyReplace_cite_out (k : Nat) (rep s t : Text) (h : '<' ∉ s) :
    pyReplace (citeStr k) rep (s ++ t) = s ++ pyReplace (citeStr k) rep t :=
  replaceAll_append_out '<'
    ('<' :: ('C' :: ('I' :: ('T' :: ('E' :: ('_' :: (natDigits k ++ (">>").data)))))))
    rep s t h

/-- Replacing a `<<CITE_k>>` pattern at its own occurrence. -/
theorem pyReplace_cite_match (k : Nat) (rep t : Text) :
    pyReplace (citeStr k) rep (citeStr k ++ t) = rep ++ pyReplace (citeStr k) rep t :=
  replaceAll_exact '<'
    ('<' :: ('C' :: ('I' :: ('T' :: ('E' :: ('_' :: (natDigits k ++ (">>").data)))))))
    rep t

/-- The tail of a `<<CITE_j>>` placeholder after its two angle brackets is
free of the character `<`. -/
theorem not_lt_cite_tail (j : Nat) :
    '<' ∉ 'C' :: ('I' :: ('T' :: ('E' :: ('_' :: (natDigits j ++ (">>").data))))) := by
  intro h
  rcases List.mem_cons.mp h with h1 | h1
  · exact absurd h1 (by decide)
  rcases List.mem_cons.mp h1 with h2 | h2
  · exact absurd h2 (by decide)
  rcases List.mem_cons.mp h2 with h3 | h3
  · exact absurd h3 (by decide)
  rcases List.mem_cons.mp h3 with h4 | h4
  · exact absurd h4 (by decide)
  rcases List.mem_cons.mp h4 with h5 | h5
  · exact absurd h5 (by decide)
  rcases List.mem_append.mp h5 with h6 | h6
  · exact not_mem_natDigits (by decide) j h6
  · revert h6
    decide

/-- A `<<CITE_k>>` pattern for a different index passes over a
`<<CITE_j>>` placeholder unchanged. -/
theorem pyReplace_cite_mismatch (k j : Nat) (rep : Text) (h : j ≠ k) (t : Text) :
    pyReplace (citeStr k) rep (citeStr j ++ t) =
      citeStr j ++ pyReplace (citeStr k) rep t := by
  have hpre : (citeStr k).isPrefixOf
      ('<' :: ('<' :: (('C' :: ('I' :: ('T' :: ('E' :: ('_' :: (natDigits j ++ (">>").data)))))) ++ t))) =
      false :=
    Bool.eq_false_iff.mpr (fun hb => h (((citeStr_isPrefixOf_cite k j t).mp hb)).symm)
  have hpre2 : (citeStr k).isPrefixOf
      ('<' :: (('C' :: ('I' :: ('T' :: ('E' :: ('_' :: (natDigits j ++ (">>").data)))))) ++ t)) =
      false := by
    show (('<' == '<') && (('<' == 'C') && _)) = false
    rw [show (('<' : Char) == 'C') = false from by decide, Bool.false_and, Bool.and_false]
  show replaceAll '<'
      ('<' :: ('C' :: ('I' :: ('T' :: ('E' :: ('_' :: (natDigits k ++ (">>").data)))))))
      rep
      ('<' :: ('<' :: (('C' :: ('I' :: ('T' :: ('E' :: ('_' :: (natDigits j ++ (">>").data)))))) ++ t)))
      = _
  rw [replaceAll_cons_ne '<'
      ('<' :: ('C' :: ('I' :: ('T' :: ('E' :: ('_' :: (natDigits k ++ (">>").data))))))) rep
      _ hpre,
    replaceAll_cons_ne '<'
      ('<' :: ('C' :: ('I' :: ('T' :: ('E' :: ('_' :: (natDigits k ++ (">>").data))))))) rep
      _ hpre2,
    replaceAll_append_out '<'
      ('<' :: ('C' :: ('I' :: ('T' :: ('E' :: ('_' :: (natDigits k ++ (">>").data)))))))
      rep
      ('C' :: ('I' :: ('T' :: ('E' :: ('_' :: (natDigits j ++ (">>").data)))))) t
      (not_lt_cite_tail j)]
  rfl

/-- Unfolding lemma for flatten. -/
theorem flatten_cons (q : Piece) (rest : List Piece) :
    flatten (q :: rest) = q.flat ++ flatten rest := by
  simp [flatten]

/-- Unfolding lemma for piece well-formedness. -/
theorem piecesOk_cons {q : Piece} {rest : List Piece} :
    piecesOk (q :: rest) = true ↔ q.okB = true ∧ piecesOk rest = true := by
  simp [piecesOk]

/-- Characters of a well-formed segment. -/
theorem segOk_chars {s : Text} (h : s.all segCharOk = true) :
    ∀ c ∈ s, c ≠ '[' ∧ c ≠ ']' ∧ c ≠ '<' := by
  intro c hc
  have hall := List.all_eq_true.mp h c hc
  simp only [segCharOk] at hall
  refine ⟨?_, ?_, ?_⟩ <;> intro he <;> subst he <;> simp at hall

/-- Replacing a marker over a decomposed text substitutes exactly the
markers with the pattern's number. -/
theorem pyReplace_marker_flatten (o : Nat) (rep : Text) :
    ∀ (qs : List Piece), piecesOk qs = true →
      pyReplace (markerStr o) rep (flatten qs) =
        (qs.map (fun q => if q = Piece.mark o then rep else q.flat)).join := by
  intro qs
  induction qs with
  | nil => intro _; rfl
  | cons q rest ih =>
    intro h
    obtain ⟨hq, hrest⟩ := piecesOk_cons.mp h
    rw [flatten_cons]
    cases q with
    | txt s =>
      have hq2 : s.all segCharOk = true := by simpa [Piece.okB] using hq
      have hs : '[' ∉ s := fun hm => (segOk_chars hq2 '[' hm).1 rfl
      rw [show (Piece.txt s).flat = s from rfl,
        pyReplace_marker_out o rep s (flatten rest) hs, ih hrest]
      simp [List.join, Piece.flat]
    | mark n =>
      by_cases hn : n = o
      · subst hn
        rw [show (Piece.mark n).flat = markerStr n from rfl,
          pyReplace_marker_match n rep (flatten rest), ih hrest]
        simp [List.join, Piece.flat]
      · rw [show (Piece.mark n).flat = markerStr n from rfl,
          pyReplace_marker_mismatch o n rep (fun he => hn he.symm) (flatten rest), ih hrest]
        simp [List.join, Piece.flat, hn]
    | cite k =>
      rw [show (Piece.cite k).flat = citeStr k from rfl,
        pyReplace_marker_out o rep (citeStr k) (flatten rest) (not_open_citeStr k), ih hrest]
      simp [List.join, Piece.flat]
    | fnl k =>
      rw [show (Piece.fnl k).flat = finalStr k from rfl,
        pyReplace_marker_out o rep (finalStr k) (flatten rest) (not_open_finalStr k), ih hrest]
      simp [List.join, Piece.flat]

/-- Unfolding lemma for the no-`<<FINAL>>` predicate. -/
theorem noFnl_cons {q : Piece} {rest : List Piece} :
    noFnl (q :: rest) = true ↔
      (match q with | Piece.fnl _ => false | _ => true) = true ∧ noFnl rest = true := by
  simp [noFnl]

/-- Replacing a `<<CITE_k>>` placeholder over a decomposed text (without
`<<FINAL>>` pieces) substitutes exactly the placeholders with index `k`. -/
theorem pyReplace_cite_flatten (k : Nat) (rep : Text) :
    ∀ (qs : List Piece), piecesOk qs = true → noFnl qs = true →
      pyReplace (citeStr k) rep (flatten qs) =
        (qs.map (fun q => if q = Piece.cite k then rep else q.flat)).join := by
  intro qs
  induction qs with
  | nil => intro _ _; rfl
  | cons q rest ih =>
    intro h hf
    obtain ⟨hq, hrest⟩ := piecesOk_cons.mp h
    obtain ⟨hqf, hrestf⟩ := noFnl_cons.mp hf
    rw [flatten_cons]
    cases q with
    | txt s =>
      have hq2 : s.all segCharOk = true := by simpa [Piece.okB] using hq
      have hs : '<' ∉ s := fun hm => (segOk_chars hq2 '<' hm).2.2 rfl
      rw [show (Piece.txt s).flat = s from rfl,
        pyReplace_cite_out k rep s (flatten rest) hs, ih hrest hrestf]
      simp [List.join, Piece.flat]
    | mark n =>
      rw [show (Piece.mark n).flat = markerStr n from rfl,
        pyReplace_cite_out k rep (markerStr n) (flatten rest) (not_lt_markerStr n),
        ih hrest hrestf]
      simp [List.join, Piece.flat]
    | cite j =>
      by_cases hj : j = k
      · subst hj
        rw [show (Piece.cite j).flat = citeStr j from rfl,
          pyReplace_cite_match j rep (flatten rest), ih hrest hrestf]
        simp [List.join, Piece.flat]
      · rw [show (Piece.cite j).flat = citeStr j from rfl,
          pyReplace_cite_mismatch k j rep hj (flatten rest), ih hrest hrestf]
        simp [List.join, Piece.flat, hj]
    | fnl j =>
      exact absurd hqf (by simp)

/-- Unfolding lemma for the scanner at one character. -/
theorem extractAll_cons (c : Char) (rest : Text) :
    extractAll (c :: rest) =
      if c = '[' ∧ (rest.takeWhile Char.isDigit).isEmpty = false ∧
          (rest.dropWhile Char.isDigit).head? = some ']' then
        digitsToNat (rest.takeWhile Char.isDigit) :: extractAll rest
      else extractAll rest := rfl

/-- Scanning skips a character other than the opening bracket. -/
theorem extractAll_cons_ne {c : Char} (h : c ≠ '[') (rest : Text) :
    extractAll (c :: rest) = extractAll rest := by
  rw [extractAll_cons, if_neg (fun hc => h hc.1)]

/-- Scanning finds nothing in bracket-free text. -/
theorem extractAll_append_no_open :
    ∀ (s t : Text), '[' ∉ s → extractAll (s ++ t) = extractAll t := by
  intro s
  induction s with
  | nil => intro t _; rfl
  | cons c r ih =>
    intro t h
    have hc : c ≠ '[' := fun he => h (he ▸ List.mem_cons_self c r)
    show extractAll (c :: (r ++ t)) = extractAll t
    rw [extractAll_cons_ne hc, ih t (fun hm => h (List.mem_cons_of_mem c hm))]

/-- A digit group followed by a non-digit splits cleanly. -/
theorem takeWhile_digits_append (ds : Text) (hds : ∀ c ∈ ds, c.isDigit = true)
    (q : Char) (hq : q.isDigit = false) (t : Text) :
    (ds ++ q :: t).takeWhile Char.isDigit = ds ∧
      (ds ++ q :: t).dropWhile Char.isDigit = q :: t := by
  induction ds with
  | nil =>
    constructor
    · show (q :: t).takeWhile Char.isDigit = []
      rw [List.takeWhile_cons_of_neg (by rw [hq]; exact Bool.noConfusion)]
    · show (q :: t).dropWhile Char.isDigit = q :: t
      rw [List.dropWhile_cons_of_neg (by rw [hq]; exact Bool.noConfusion)]
  | cons d r ih =>
    have hd : Char.isDigit d = true := hds d (List.mem_cons_self d r)
    obtain ⟨ih1, ih2⟩ := ih (fun c hc => hds c (List.mem_cons_of_mem d hc))
    constructor
    · show ((d :: (r ++ q :: t)).takeWhile Char.isDigit) = d :: r
      rw [List.takeWhile_cons_of_pos hd, ih1]
    · show ((d :: (r ++ q :: t)).dropWhile Char.isDigit) = q :: t
      rw [List.dropWhile_cons_of_pos hd, ih2]

/-- `natDigits` is never the empty list, as a Boolean. -/
theorem natDigits_isEmpty_false (n : Nat) : (natDigits n).isEmpty = false := by
  cases h : natDigits n with
  | nil => exact absurd h (natDigits_ne_nil n)
  | cons c r => rfl

/-- Scanning a marker records its number and continues. -/
theorem extractAll_marker (n : Nat) (t : Text) :
    extractAll (markerStr n ++ t) = n :: extractAll t := by
  have hsh : (natDigits n ++ [']']) ++ t = natDigits n ++ (']' :: t) := by simp
  show extractAll ('[' :: ((natDigits n ++ [']']) ++ t)) = _
  rw [hsh]
  obtain ⟨htw, hdw⟩ := takeWhile_digits_append (natDigits n) (natDigits_digits n) ']'
    (by decide) t
  rw [extractAll_cons, if_pos ⟨rfl, by rw [htw]; exact natDigits_isEmpty_false n,
    by rw [hdw]; rfl⟩, htw, digitsToNat_natDigits]
  rw [extractAll_append_no_open (natDigits n) (']' :: t)
    (not_mem_natDigits (by decide) n), extractAll_cons_ne (by decide) t]

/-- Scanning passes over a `<<CITE_k>>` placeholder. -/
theorem extractAll_cite (k : Nat) (t : Text) :
    extractAll (citeStr k ++ t) = extractAll t := by
  show extractAll (((("<<CITE_").data ++ natDigits k) ++ (">>").data) ++ t) = extractAll t
  rw [List.append_assoc, List.append_assoc]
  rw [extractAll_append_no_open (("<<CITE_").data) _ (by decide)]
  rw [extractAll_append_no_open (natDigits k) _ (not_mem_natDigits (by decide) k)]
  rw [extractAll_append_no_open ((">>").data) _ (by decide)]

/-- Scanning a decomposed answer finds exactly its marker numbers. -/
theorem extractAll_flatten :
    ∀ (qs : List Piece), piecesOk qs = true → noFnl qs = true →
      extractAll (flatten qs) = marksOf qs := by
  intro qs
  induction qs with
  | nil => intro _ _; rfl
  | cons q rest ih =>
    intro h hf
    obtain ⟨hq, hrest⟩ := piecesOk_cons.mp h
    obtain ⟨hqf, hrestf⟩ := noFnl_cons.mp hf
    rw [flatten_cons]
    cases q with
    | txt s =>
      have hq2 : s.all segCharOk = true := by simpa [Piece.okB] using hq
      have hs : '[' ∉ s := fun hm => (segOk_chars hq2 '[' hm).1 rfl
      rw [show (Piece.txt s).flat = s from rfl,
        extractAll_append_no_open s (flatten rest) hs, ih hrest hrestf]
      simp [marksOf, Piece.flat]
    | mark n =>
      rw [show (Piece.mark n).flat = markerStr n from rfl, extractAll_marker n (flatten rest),
        ih hrest hrestf]
      simp [marksOf, Piece.flat]
    | cite k =>
      rw [show (Piece.cite k).flat = citeStr k from rfl, extractAll_cite k (flatten rest),
        ih hrest hrestf]
      simp [marksOf, Piece.flat]
    | fnl k =>
      exact absurd hqf (by simp)

/-- Marker-removal skip mode consumes exactly the skipped characters. -/
theorem rmAux_skip :
    ∀ (s t : Text) (j : Nat), rmAux (s.length + j) (s ++ t) = rmAux j t := by
  intro s
  induction s with
  | nil =>
    intro t j
    simp
  | cons c r ih =>
    intro t j
    have h1 : (c :: r).length + j = (r.length + j) + 1 := by
      simp [List.length_cons]
      omega
    rw [h1]
    show rmAux (r.length + j) (r ++ t) = rmAux j t
    exact ih t j

/-- Unfolding lemma for marker removal at one character. -/
theorem rmAux_cons (c : Char) (rest : Text) :
    rmAux 0 (c :: rest) =
      if c = '[' ∧ (rest.takeWhile Char.isDigit).isEmpty = false ∧
          (rest.dropWhile Char.isDigit).head? = some ']' then
        rmAux ((rest.takeWhile Char.isDigit).length + 1) rest
      else c :: rmAux 0 rest := rfl

/-- Marker removal copies a character other than the opening bracket. -/
theorem rmAux_cons_ne {c : Char} (h : c ≠ '[') (rest : Text) :
    rmAux 0 (c :: rest) = c :: rmAux 0 rest := by
  rw [rmAux_cons, if_neg (fun hc => h hc.1)]

/-- Marker removal copies bracket-free text unchanged. -/
theorem rmAux_append_no_open :
    ∀ (s t : Text), '[' ∉ s → rmAux 0 (s ++ t) = s ++ rmAux 0 t := by
  intro s
  induction s with
  | nil => intro t _; rfl
  | cons c r ih =>
    intro t h
    have hc : c ≠ '[' := fun he => h (he ▸ List.mem_cons_self c r)
    show rmAux 0 (c :: (r ++ t)) = _
    rw [rmAux_cons_ne hc, ih t (fun hm => h (List.mem_cons_of_mem c hm))]
    rfl

/-- Marker removal deletes a whole marker and continues after it. -/
theorem rmAux_marker (n : Nat) (t : Text) :
    rmAux 0 (markerStr n ++ t) = rmAux 0 t := by
  have hsh : (natDigits n ++ [']']) ++ t = natDigits n ++ (']' :: t) := by simp
  show rmAux 0 ('[' :: ((natDigits n ++ [']']) ++ t)) = _
  rw [hsh]
  obtain ⟨htw, hdw⟩ := takeWhile_digits_append (natDigits n) (natDigits_digits n) ']'
    (by decide) t
  rw [rmAux_cons, if_pos ⟨rfl, by rw [htw]; exact natDigits_isEmpty_false n,
    by rw [hdw]; rfl⟩, htw]
  have hskip := rmAux_skip (natDigits n) (']' :: t) 1
  rw [hskip]
  rfl

/-- Removing all markers from a decomposed raw answer leaves exactly the
concatenation of its segments. -/
theorem removeMarkers_flatten :
    ∀ (qs : List Piece), rawPieces qs = true →
      removeMarkers (flatten qs) = segTexts qs := by
  intro qs
  induction qs with
  | nil => intro _; rfl
  | cons q rest ih =>
    intro h
    have hsplit : rawPiece q = true ∧ q.okB = true ∧ rawPieces rest = true := by
      simp only [rawPieces, piecesOk, List.all_cons, Bool.and_eq_true] at h ⊢
      exact ⟨h.1.1, h.2.1, h.1.2, h.2.2⟩
    rw [flatten_cons]
    cases q with
    | txt s =>
      have hq2 : s.all segCharOk = true := by simpa [Piece.okB] using hsplit.2.1
      have hs : '[' ∉ s := fun hm => (segOk_chars hq2 '[' hm).1 rfl
      have h1 : removeMarkers (s ++ flatten rest) = s ++ removeMarkers (flatten rest) :=
        rmAux_append_no_open s (flatten rest) hs
      rw [show (Piece.txt s).flat = s from rfl, h1, ih hsplit.2.2]
      simp [segTexts]
    | mark n =>
      have h1 : removeMarkers (markerStr n ++ flatten rest) = removeMarkers (flatten rest) :=
        rmAux_marker n (flatten rest)
      rw [show (Piece.mark n).flat = markerStr n from rfl, h1, ih hsplit.2.2]
      simp [segTexts]
    | cite k => exact absurd hsplit.1 (by simp [rawPiece])
    | fnl k => exact absurd hsplit.1 (by simp [rawPiece])

/-- Segment pieces contribute their text to the segment concatenation. -/
theorem segTexts_cons_txt (s : Text) (rest : List Piece) :
    segTexts (Piece.txt s :: rest) = s ++ segTexts rest := by
  simp [segTexts]

/-- Non-segment pieces contribute nothing to the segment concatenation. -/
theorem segTexts_cons_mark (n : Nat) (rest : List Piece) :
    segTexts (Piece.mark n :: rest) = segTexts rest := by
  simp [segTexts]

/-- The segment concatenation of a well-formed decomposition is
bracket-free. -/
theorem segTexts_no_open :
    ∀ (qs : List Piece), piecesOk qs = true → '[' ∉ segTexts qs := by
  intro qs
  induction qs with
  | nil => intro _ h; exact absurd h (List.not_mem_nil '[')
  | cons q rest ih =>
    intro h hm
    obtain ⟨hq, hrest⟩ := piecesOk_cons.mp h
    cases q with
    | txt s =>
      have hq2 : s.all segCharOk = true := by simpa [Piece.okB] using hq
      rw [segTexts_cons_txt] at hm
      rcases List.mem_append.mp hm with h1 | h1
      · exact (segOk_chars hq2 '[' h1).1 rfl
      · exact ih hrest h1
    | mark n =>
      rw [segTexts_cons_mark] at hm
      exact ih hrest hm
    | cite k => exact ih hrest (by simpa [segTexts] using hm)
    | fnl k => exact ih hrest (by simpa [segTexts] using hm)

/-- Stripping keeps only characters of the text. -/
theorem mem_pyStrip {c : Char} {s : Text} (h : c ∈ pyStrip s) : c ∈ s := by
  have h1 : c ∈ (s.dropWhile Char.isWhitespace).reverse.dropWhile Char.isWhitespace :=
    List.mem_reverse.mp h
  have h2 : c ∈ (s.dropWhile Char.isWhitespace).reverse :=
    ((s.dropWhile Char.isWhitespace).reverse.dropWhile_sublist Char.isWhitespace).mem h1
  have h3 : c ∈ s.dropWhile Char.isWhitespace := List.mem_reverse.mp h2
  exact (s.dropWhile_sublist Char.isWhitespace).mem h3

/-- A bracket-free text contains no marker. -/
theorem extractAll_eq_nil_of_no_open (s : Text) (h : '[' ∉ s) : extractAll s = [] := by
  have he := extractAll_append_no_open s [] h
  rw [List.append_nil] at he
  exact he

/-- Well-formedness is preserved by any piece map that respects it. -/
theorem piecesOk_map (f : Piece → Piece) (hf : ∀ q, q.okB = true → (f q).okB = true) :
    ∀ (qs : List Piece), piecesOk qs = true → piecesOk (qs.map f) = true := by
  intro qs
  induction qs with
  | nil => intro _; rfl
  | cons q rest ih =>
    intro h
    obtain ⟨hq, hrest⟩ := piecesOk_cons.mp h
    exact piecesOk_cons.mpr ⟨hf q hq, ih hrest⟩

/-- Absence of `<<FINAL>>` pieces is preserved by any piece map that
respects it. -/
theorem noFnl_map (f : Piece → Piece)
    (hf : ∀ q, (match q with | Piece.fnl _ => false | _ => true) = true →
      (match f q with | Piece.fnl _ => false | _ => true) = true) :
    ∀ (qs : List Piece), noFnl qs = true → noFnl (qs.map f) = true := by
  intro qs
  induction qs with
  | nil => intro _; rfl
  | cons q rest ih =>
    intro h
    obtain ⟨hq, hrest⟩ := noFnl_cons.mp h
    exact noFnl_cons.mpr ⟨hf q hq, ih hrest⟩

/-- The first renumbering pass acts piecewise on a decomposed answer:
each marker whose number has a mapping entry (among the processed numbers)
becomes the corresponding `<<CITE>>` placeholder. -/
theorem pass1_flatten (mapping : List (Nat × Nat)) :
    ∀ (olds : List Nat) (qs : List Piece), piecesOk qs = true →
      pass1 mapping olds (flatten qs) = flatten (qs.map (pass1Piece mapping olds)) := by
  intro olds
  induction olds with
  | nil =>
    intro qs h
    show flatten qs = flatten (qs.map (pass1Piece mapping []))
    have hid : ∀ q ∈ qs, pass1Piece mapping [] q = id q := by
      intro q _
      cases q <;> simp [pass1Piece]
    rw [List.map_congr_left hid, List.map_id]
  | cons o rest ih =>
    intro qs h
    show pass1 mapping rest (match mappingLookup mapping o with
      | some nw => pyReplace (markerStr o) (citeStr nw) (flatten qs)
      | none => flatten qs) = flatten (qs.map (pass1Piece mapping (o :: rest)))
    cases hl : mappingLookup mapping o with
    | none =>
      show pass1 mapping rest (flatten qs) = flatten (qs.map (pass1Piece mapping (o :: rest)))
      rw [ih qs h]
      congr 1
      apply List.map_congr_left
      intro q _
      cases q with
      | txt s => rfl
      | cite k => rfl
      | fnl k => rfl
      | mark n =>
        by_cases hn : n = o
        · subst hn
          by_cases hr : n ∈ rest <;> simp [pass1Piece, hl, hr]
        · simp [pass1Piece, List.mem_cons, hn]
    | some nw =>
      show pass1 mapping rest (pyReplace (markerStr o) (citeStr nw) (flatten qs)) =
        flatten (qs.map (pass1Piece mapping (o :: rest)))
      rw [pyReplace_marker_flatten o (citeStr nw) qs h]
      have hjoin : (qs.map (fun q => if q = Piece.mark o then citeStr nw else q.flat)).join =
          flatten (qs.map (fun q => if q = Piece.mark o then Piece.cite nw else q)) := by
        rw [flatten, List.map_map]
        congr 1
        apply List.map_congr_left
        intro q _
        by_cases hq0 : q = Piece.mark o <;> simp [hq0, Piece.flat]
      have hok2 : piecesOk (qs.map (fun q => if q = Piece.mark o then Piece.cite nw else q)) =
          true := by
        apply piecesOk_map _ _ qs h
        intro q hq
        by_cases hq0 : q = Piece.mark o
        · rw [if_pos hq0]
          rfl
        · rw [if_neg hq0]
          exact hq
      rw [hjoin, ih _ hok2, List.map_map]
      congr 1
      apply List.map_congr_left
      intro q _
      cases q with
      | txt s => simp [pass1Piece]
      | cite k => simp [pass1Piece]
      | fnl k => simp [pass1Piece]
      | mark n =>
        by_cases hn : n = o
        · subst hn
          simp [pass1Piece, hl]
        · simp [pass1Piece, List.mem_cons, hn]

/-- The placeholder-resolution pass acts piecewise on a decomposed answer:
each `<<CITE_k>>` placeholder with `k` among the processed values becomes
the marker `[k]`. -/
theorem pass2_flatten :
    ∀ (vals : List Nat) (qs : List Piece), piecesOk qs = true → noFnl qs = true →
      pass2 vals (flatten qs) = flatten (qs.map (pass2Piece vals)) := by
  intro vals
  induction vals with
  | nil =>
    intro qs h hf
    show flatten qs = flatten (qs.map (pass2Piece []))
    have hid : ∀ q ∈ qs, pass2Piece [] q = id q := by
      intro q _
      cases q <;> simp [pass2Piece]
    rw [List.map_congr_left hid, List.map_id]
  | cons k rest ih =>
    intro qs h hf
    show pass2 rest (pyReplace (citeStr k) (markerStr k) (flatten qs)) =
      flatten (qs.map (pass2Piece (k :: rest)))
    rw [pyReplace_cite_flatten k (markerStr k) qs h hf]
    have hjoin : (qs.map (fun q => if q = Piece.cite k then markerStr k else q.flat)).join =
        flatten (qs.map (fun q => if q = Piece.cite k then Piece.mark k else q)) := by
      rw [flatten, List.map_map]
      congr 1
      apply List.map_congr_left
      intro q _
      by_cases hq0 : q = Piece.cite k <;> simp [hq0, Piece.flat]
    have hok2 : piecesOk (qs.map (fun q => if q = Piece.cite k then Piece.mark k else q)) =
        true := by
      apply piecesOk_map _ _ qs h
      intro q hq
      by_cases hq0 : q = Piece.cite k
      · rw [if_pos hq0]
        rfl
      · rw [if_neg hq0]
        exact hq
    have hf2 : noFnl (qs.map (fun q => if q = Piece.cite k then Piece.mark k else q)) =
        true := by
      apply noFnl_map _ _ qs hf
      intro q hq
      by_cases hq0 : q = Piece.cite k
      · rw [if_pos hq0]
      · rw [if_neg hq0]
        exact hq
    rw [hjoin, ih _ hok2 hf2, List.map_map]
    congr 1
    apply List.map_congr_left
    intro q _
    cases q with
    | txt s => simp [pass2Piece]
    | mark n => simp [pass2Piece]
    | fnl j => simp [pass2Piece]
    | cite j =>
      by_cases hj : j = k
      · subst hj
        simp [pass2Piece]
      · simp [pass2Piece, List.mem_cons, hj]

/-- Membership in an insertion. -/
theorem mem_insertSorted (a n : Nat) :
    ∀ l, a ∈ insertSorted n l ↔ a = n ∨ a ∈ l := by
  intro l
  induction l with
  | nil => simp [insertSorted]
  | cons m rest ih =>
    simp only [insertSorted]
    by_cases h1 : n < m
    · rw [if_pos h1]
      simp
    · rw [if_neg h1]
      by_cases h2 : n = m
      · subst h2
        rw [if_pos rfl]
        constructor
        · intro h
          exact Or.inr h
        · intro h
          rcases h with h | h
          · exact h ▸ List.mem_cons_self _ _
          · exact h
      · rw [if_neg h2]
        simp only [List.mem_cons, ih]
        constructor
        · intro h
          rcases h with h | h | h
          · exact Or.inr (Or.inl h)
          · exact Or.inl h
          · exact Or.inr (Or.inr h)
        · intro h
          rcases h with h | h | h
          · exact Or.inr (Or.inl h)
          · exact Or.inl h
          · exact Or.inr (Or.inr h)

/-- Insertion preserves strict sortedness. -/
theorem pairwise_insertSorted (n : Nat) :
    ∀ l, l.Pairwise (· < ·) → (insertSorted n l).Pairwise (· < ·) := by
  intro l
  induction l with
  | nil => intro _; simp [insertSorted]
  | cons m rest ih =>
    intro hp
    rw [List.pairwise_cons] at hp
    simp only [insertSorted]
    by_cases h1 : n < m
    · rw [if_pos h1, List.pairwise_cons]
      constructor
      · intro b hb
        rcases List.mem_cons.mp hb with hb | hb
        · omega
        · have := hp.1 b hb
          omega
      · exact List.pairwise_cons.mpr hp
    · rw [if_neg h1]
      by_cases h2 : n = m
      · rw [if_pos h2]
        exact List.pairwise_cons.mpr hp
      · rw [if_neg h2, List.pairwise_cons]
        constructor
        · intro b hb
          rcases (mem_insertSorted b n rest).mp hb with hb | hb
          · omega
          · exact hp.1 b hb
        · exact ih hp.2

/-- The canonical set representation is strictly sorted. -/
theorem dedupSort_pairwise : ∀ l, (dedupSort l).Pairwise (· < ·) := by
  intro l
  induction l with
  | nil => simp [dedupSort]
  | cons a rest ih =>
    show (insertSorted a (dedupSort rest)).Pairwise (· < ·)
    exact pairwise_insertSorted a _ ih

/-- The canonical set representation has the same members. -/
theorem mem_dedupSort (a : Nat) : ∀ l, a ∈ dedupSort l ↔ a ∈ l := by
  intro l
  induction l with
  | nil => simp [dedupSort]
  | cons b rest ih =>
    show a ∈ insertSorted b (dedupSort rest) ↔ a ∈ b :: rest
    rw [mem_insertSorted, ih]
    simp

/-- Two strictly sorted lists with the same members are equal. -/
theorem pairwise_lt_ext :
    ∀ (l1 l2 : List Nat), l1.Pairwise (· < ·) → l2.Pairwise (· < ·) →
      (∀ a, a ∈ l1 ↔ a ∈ l2) → l1 = l2 := by
  intro l1
  induction l1 with
  | nil =>
    intro l2 _ _ hm
    cases l2 with
    | nil => rfl
    | cons b r => exact absurd ((hm b).mpr (List.mem_cons_self b r)) (List.not_mem_nil b)
  | cons a r1 ih =>
    intro l2 h1 h2 hm
    cases l2 with
    | nil => exact absurd ((hm a).mp (List.mem_cons_self a r1)) (List.not_mem_nil a)
    | cons b r2 =>
      rw [List.pairwise_cons] at h1 h2
      have hab : a = b := by
        have ha2 : a ∈ b :: r2 := (hm a).mp (List.mem_cons_self _ _)
        have hb1 : b ∈ a :: r1 := (hm b).mpr (List.mem_cons_self _ _)
        rcases List.mem_cons.mp ha2 with h | h
        · exact h
        · rcases List.mem_cons.mp hb1 with h2b | h2b
          · exact h2b.symm
          · have hx := h2.1 a h
            have hy := h1.1 b h2b
            omega
      subst hab
      congr 1
      apply ih r2 h1.2 h2.2
      intro c
      constructor
      · intro hc
        have hlt := h1.1 c hc
        rcases List.mem_cons.mp ((hm c).mp (List.mem_cons_of_mem a hc)) with h | h
        · omega
        · exact h
      · intro hc
        have hlt := h2.1 c hc
        rcases List.mem_cons.mp ((hm c).mpr (List.mem_cons_of_mem a hc)) with h | h
        · omega
        · exact h

/-- `range' s n` is strictly sorted. -/
theorem range'_pairwise : ∀ (n s : Nat), (List.range' s n).Pairwise (· < ·) := by
  intro n
  induction n with
  | zero => intro s; simp
  | succ m ih =>
    intro s
    rw [List.range'_succ, List.pairwise_cons]
    constructor
    · intro b hb
      have := List.mem_range'_1.mp hb
      omega
    · exact ih (s + 1)

/-- A successful mapping lookup is a binding of the association list. -/
theorem lookup_some_mem :
    ∀ (m : List (Nat × Nat)) {i v : Nat},
      mappingLookup m i = some v → (i, v) ∈ m := by
  intro m
  induction m with
  | nil => intro i v h; exact absurd h (by simp [mappingLookup, List.find?])
  | cons q rest ih =>
    intro i v h
    unfold mappingLookup at h
    rw [List.find?_cons] at h
    cases hqi : (q.fst == i) with
    | true =>
      simp only [hqi, Option.map_some] at h
      have h1 : q.fst = i := by simpa using hqi
      have h2 : q.snd = v := by injection h
      have hq : q = (i, v) := by
        cases q
        simp_all
      exact hq ▸ List.mem_cons_self _ _
    | false =>
      simp only [hqi] at h
      exact List.mem_cons_of_mem q (ih h)

/-- A lookup never fails when some binding exists; it returns the first. -/
theorem lookup_isSome_of_mem {m : List (Nat × Nat)} {i v : Nat} (h : (i, v) ∈ m) :
    ∃ w, mappingLookup m i = some w := by
  have hsome : (m.find? (fun p => p.fst == i)).isSome = true := by
    rw [List.find?_isSome]
    exact ⟨(i, v), h, by simp⟩
  obtain ⟨q, hq⟩ := Option.isSome_iff_exists.mp hsome
  exact ⟨q.snd, by unfold mappingLookup; rw [hq]; rfl⟩

/-- With distinct keys, lookup retrieves any recorded binding. -/
theorem lookup_of_mem_nodup :
    ∀ (m : List (Nat × Nat)), (m.map Prod.fst).Nodup →
      ∀ {i v : Nat}, (i, v) ∈ m → mappingLookup m i = some v := by
  intro m
  induction m with
  | nil => intro _ i v h; exact absurd h (List.not_mem_nil _)
  | cons q rest ih =>
    intro hnd i v h
    rw [List.map_cons, List.nodup_cons] at hnd
    rcases List.mem_cons.mp h with h1 | h1
    · subst h1
      simp [mappingLookup, List.find?_cons]
    · have hqi : q.fst ≠ i := fun he => hnd.1 (he ▸ List.mem_map.mpr ⟨(i, v), h1, rfl⟩)
      have hne : (q.fst == i) = false := by simpa using hqi
      unfold mappingLookup
      rw [List.find?_cons]
      simp only [hne]
      exact ih hnd.2 h1

/-- Appending a binding preserves earlier lookups. -/
theorem lookup_append_left {m : List (Nat × Nat)} {i v : Nat}
    (h : mappingLookup m i = some v) (e : Nat × Nat) :
    mappingLookup (m ++ [e]) i = some v := by
  unfold mappingLookup at h ⊢
  rw [List.find?_append]
  cases hf : m.find? (fun p => p.fst == i) with
  | none => rw [hf] at h; exact absurd h (by simp)
  | some q =>
    rw [hf] at h
    have hor : (some q).or (List.find? (fun p => p.fst == i) [e]) = some q := rfl
    rw [hor]
    exact h

/-- Appending a binding with a fresh key makes it the lookup result. -/
theorem lookup_append_new {m : List (Nat × Nat)} {i : Nat}
    (h : ∀ p ∈ m, p.fst ≠ i) (v : Nat) :
    mappingLookup (m ++ [(i, v)]) i = some v := by
  unfold mappingLookup
  have hnone : List.find? (fun p => p.fst == i) m = none :=
    List.find?_eq_none.mpr (fun p hp => by simp [h p hp])
  rw [List.find?_append, hnone]
  simp [List.find?_cons]

/-- Marker numbers of a decomposition are exactly its marker pieces. -/
theorem mem_marksOf {n : Nat} {ps : List Piece} :
    n ∈ marksOf ps ↔ Piece.mark n ∈ ps := by
  unfold marksOf
  rw [List.mem_filterMap]
  constructor
  · intro ⟨q, hq, he⟩
    cases q with
    | mark m =>
      have : m = n := by simpa using he
      exact this ▸ hq
    | txt s => exact Option.noConfusion he
    | cite k => exact Option.noConfusion he
    | fnl k => exact Option.noConfusion he
  · intro h
    exact ⟨Piece.mark n, h, rfl⟩

/-- The survivor filter keeps everything when every position is kept. -/
theorem filterByIndex_all (cits : List Citation) (keep : List Nat)
    (h : ∀ i, 1 ≤ i → i ≤ cits.length → i ∈ keep) :
    filterByIndex cits keep = cits := by
  unfold filterByIndex
  have haux : ∀ (l : List Citation) (s : Nat), (∀ i, s ≤ i → i < s + l.length → i ∈ keep) →
      ((l.enumFrom s).filter (fun p => keep.contains p.fst)).map Prod.snd = l := by
    intro l
    induction l with
    | nil => intro s _; rfl
    | cons c rest ih =>
      intro s hs
      show (((s, c) :: rest.enumFrom (s + 1)).filter (fun p => keep.contains p.fst)).map
        Prod.snd = c :: rest
      rw [List.filter_cons, if_pos (by
        simpa using hs s (Nat.le_refl s) (by simp [List.length_cons]))]
      rw [List.map_cons, ih (s + 1) (fun i h1 h2 => hs i (by omega)
        (by simp [List.length_cons] at h2 ⊢; omega))]
  apply haux cits 1
  intro i h1 h2
  exact h i h1 (by omega)

/-- One dedup iteration on a truthy chunk preserves the loop invariant. -/
theorem dedupStep_inv (chunks : List RChunk) (cited : List Nat) (bound : Nat) (st : DState)
    (c : RChunk) (hb : 1 ≤ bound)
    (hc : chunks.get? (bound - 1) = some c)
    (hv : c.title ≠ [] ∧ c.page ≠ 0)
    (hInv : DedupInv chunks cited bound st) :
    DedupInv chunks cited (bound + 1) (dedupStep chunks cited st bound c) := by
  obtain ⟨hB, hC, hD, hE, hF⟩ := hInv
  unfold dedupStep
  by_cases h1 : bound ∈ cited
  · rw [if_pos h1]
    by_cases h2 : keyOf c ∉ st.seen ∧ c.title ≠ [] ∧ c.page ≠ 0
    · rw [if_pos h2]
      refine ⟨?_, ?_, ?_, ?_, ?_⟩
      · intro p hp
        rcases List.mem_append.mp hp with hp | hp
        · have hx := hB p hp
          refine ⟨hx.1, hx.2.1, by omega, hx.2.2.2.1, ?_⟩
          show p.snd ≤ (st.citations ++ [(⟨c.title, c.page, c.url⟩ : Citation)]).length
          rw [List.length_append]
          omega
        · have hpe : p = (bound, st.citations.length + 1) := by simpa using hp
          subst hpe
          refine ⟨h1, hb, by omega, by omega, ?_⟩
          show st.citations.length + 1 ≤ (st.citations ++ [(⟨c.title, c.page, c.url⟩ : Citation)]).length
          simp
      · intro k hk
        rcases List.mem_append.mp hk with hk | hk
        · obtain ⟨p, hp, hkey⟩ := hC k hk
          exact ⟨p, List.mem_append_left _ hp, hkey⟩
        · have hke : k = keyOf c := by simpa using hk
          subst hke
          refine ⟨(bound, st.citations.length + 1), List.mem_append_right _ (by simp), ?_⟩
          unfold chunkKeyAt
          rw [hc]
          rfl
      · intro j hj h1j hjb
        by_cases hjb2 : j < bound
        · obtain ⟨v, hv2⟩ := hD j hj h1j hjb2
          exact ⟨v, lookup_append_left hv2 _⟩
        · have hje : j = bound := by omega
          subst hje
          exact ⟨st.citations.length + 1,
            lookup_append_new (fun p hp => by have := hB p hp; omega) _⟩
      · intro v h1v h2v
        simp only [List.length_append, List.length_cons, List.length_nil] at h2v
        by_cases hv2 : v ≤ st.citations.length
        · obtain ⟨p, hp, hps⟩ := hE v h1v hv2
          exact ⟨p, List.mem_append_left _ hp, hps⟩
        · have hve : v = st.citations.length + 1 := by omega
          exact ⟨(bound, st.citations.length + 1), List.mem_append_right _ (by simp),
            by simp [hve]⟩
      · show ((st.mapping ++ [(bound, st.citations.length + 1)]).map Prod.fst).Nodup
        rw [List.map_append, List.nodup_append]
        refine ⟨hF, by simp, ?_⟩
        intro a ha hb2
        obtain ⟨p, hp, hpa⟩ := List.mem_map.mp ha
        have hab : a = bound := by simpa using hb2
        have hx := hB p hp
        omega
    · rw [if_neg h2]
      have hseen : keyOf c ∈ st.seen := by
        by_contra hns
        exact h2 ⟨hns, hv.1, hv.2⟩
      rw [if_pos hseen]
      obtain ⟨p0, hp0m, hp0k⟩ := hC (keyOf c) hseen
      have hsome : (st.mapping.find?
          (fun p => chunkKeyAt chunks p.fst == some (keyOf c))).isSome = true := by
        rw [List.find?_isSome]
        exact ⟨p0, hp0m, by simp [hp0k]⟩
      obtain ⟨q, hq⟩ := Option.isSome_iff_exists.mp hsome
      rw [hq]
      have hqm : q ∈ st.mapping := List.mem_of_find?_eq_some hq
      have hqB := hB q hqm
      refine ⟨?_, ?_, ?_, ?_, ?_⟩
      · intro p hp
        rcases List.mem_append.mp hp with hp | hp
        · have hx := hB p hp
          exact ⟨hx.1, hx.2.1, by omega, hx.2.2.2.1, hx.2.2.2.2⟩
        · have hpe : p = (bound, q.snd) := by simpa using hp
          subst hpe
          exact ⟨h1, hb, by omega, hqB.2.2.2.1, hqB.2.2.2.2⟩
      · intro k hk
        obtain ⟨p, hp, hkey⟩ := hC k hk
        exact ⟨p, List.mem_append_left _ hp, hkey⟩
      · intro j hj h1j hjb
        by_cases hjb2 : j < bound
        · obtain ⟨v, hv2⟩ := hD j hj h1j hjb2
          exact ⟨v, lookup_append_left hv2 _⟩
        · have hje : j = bound := by omega
          subst hje
          exact ⟨q.snd, lookup_append_new (fun p hp => by have := hB p hp; omega) _⟩
      · intro v h1v h2v
        obtain ⟨p, hp, hps⟩ := hE v h1v h2v
        exact ⟨p, List.mem_append_left _ hp, hps⟩
      · show ((st.mapping ++ [(bound, q.snd)]).map Prod.fst).Nodup
        rw [List.map_append, List.nodup_append]
        refine ⟨hF, by simp, ?_⟩
        intro a ha hb2
        obtain ⟨p, hp, hpa⟩ := List.mem_map.mp ha
        have hab : a = bound := by simpa using hb2
        have hx := hB p hp
        omega
  · rw [if_neg h1]
    refine ⟨?_, hC, ?_, hE, hF⟩
    · intro p hp
      have hx := hB p hp
      exact ⟨hx.1, hx.2.1, by omega, hx.2.2.2.1, hx.2.2.2.2⟩
    · intro j hj h1j hjb
      by_cases hjb2 : j < bound
      · exact hD j hj h1j hjb2
      · have hje : j = bound := by omega
        subst hje
        exact absurd hj h1

/-- Invariant preservation along a suffix of the enumerate-fold. -/
theorem dedupFold_inv_aux (chunks : List RChunk) (cited : List Nat)
    (hval : ∀ c ∈ chunks, c.title ≠ [] ∧ c.page ≠ 0) :
    ∀ (l : List RChunk) (i : Nat) (st : DState), 1 ≤ i → chunks.drop (i - 1) = l →
      DedupInv chunks cited i st →
      DedupInv chunks cited (i + l.length)
        ((l.enumFrom i).foldl (fun s p => dedupStep chunks cited s p.fst p.snd) st) := by
  intro l
  induction l with
  | nil => intro i st _ _ hInv; simpa using hInv
  | cons c rest ih =>
    intro i st hi hdrop hInv
    have hget : chunks.get? (i - 1) = some c := by
      rw [List.get?_eq_getElem?, ← List.head?_drop, hdrop]
      rfl
    have hmem : c ∈ chunks := by
      have hmem0 : c ∈ chunks.drop (i - 1) := by
        rw [hdrop]
        exact List.mem_cons_self _ _
      exact List.mem_of_mem_drop hmem0
    have hstep := dedupStep_inv chunks cited i st c hi hget (hval c hmem) hInv
    have hdrop2 : chunks.drop (i + 1 - 1) = rest := by
      rw [show i + 1 - 1 = (i - 1) + 1 from by omega, ← List.drop_drop, hdrop]
      rfl
    show DedupInv chunks cited (i + (rest.length + 1))
      ((rest.enumFrom (i + 1)).foldl (fun s p => dedupStep chunks cited s p.fst p.snd)
        (dedupStep chunks cited st i c))
    rw [show i + (rest.length + 1) = (i + 1) + rest.length from by omega]
    exact ih (i + 1) (dedupStep chunks cited st i c) (by omega) hdrop2 hstep

/-- After the whole dedup loop on truthy chunks, the invariant holds with
every rank of 1..len(chunks) processed. -/
theorem dedupFold_inv (chunks : List RChunk) (cited : List Nat)
    (hval : ∀ c ∈ chunks, c.title ≠ [] ∧ c.page ≠ 0) :
    DedupInv chunks cited (chunks.length + 1) (dedupFold chunks cited) := by
  have h0 : DedupInv chunks cited 1 ⟨[], [], []⟩ := by
    refine ⟨?_, ?_, ?_, ?_, ?_⟩
    · intro p hp
      exact absurd hp (List.not_mem_nil _)
    · intro k hk
      exact absurd hk (List.not_mem_nil _)
    · intro j _ h1j hjb
      omega
    · intro v h1v h2v
      simp at h2v
      omega
    · simp
  have hm := dedupFold_inv_aux chunks cited hval chunks 1 ⟨[], [], []⟩ (by omega) (by simp) h0
  rw [show 1 + chunks.length = chunks.length + 1 from by omega] at hm
  exact hm

/-- The image of a piece under the first pass is well formed. -/
theorem pass1Piece_okB (mapping : List (Nat × Nat)) (olds : List Nat) :
    ∀ q : Piece, q.okB = true → (pass1Piece mapping olds q).okB = true := by
  intro q hq
  cases q with
  | txt s => exact hq
  | mark n =>
    simp only [pass1Piece]
    by_cases hn : n ∈ olds
    · rw [if_pos hn]
      cases mappingLookup mapping n <;> rfl
    · rw [if_neg hn]
      rfl
  | cite k => exact hq
  | fnl k => exact hq

/-- The first pass never produces a `<<FINAL>>` piece. -/
theorem pass1Piece_noFnl (mapping : List (Nat × Nat)) (olds : List Nat) :
    ∀ q : Piece, (match q with | Piece.fnl _ => false | _ => true) = true →
      (match pass1Piece mapping olds q with | Piece.fnl _ => false | _ => true) = true := by
  intro q hq
  cases q with
  | txt s => exact hq
  | mark n =>
    simp only [pass1Piece]
    by_cases hn : n ∈ olds
    · rw [if_pos hn]
      cases mappingLookup mapping n <;> rfl
    · rw [if_neg hn]
  | cite k => exact hq
  | fnl k => exact hq

/-- The image of a piece under the second pass is well formed. -/
theorem pass2Piece_okB (vals : List Nat) :
    ∀ q : Piece, q.okB = true → (pass2Piece vals q).okB = true := by
  intro q hq
  cases q with
  | txt s => exact hq
  | mark n => exact hq
  | cite k =>
    simp only [pass2Piece]
    by_cases hk : k ∈ vals
    · rw [if_pos hk]
      rfl
    · rw [if_neg hk]
      rfl
  | fnl k => exact hq

/-- The second pass never produces a `<<FINAL>>` piece. -/
theorem pass2Piece_noFnl (vals : List Nat) :
    ∀ q : Piece, (match q with | Piece.fnl _ => false | _ => true) = true →
      (match pass2Piece vals q with | Piece.fnl _ => false | _ => true) = true := by
  intro q hq
  cases q with
  | txt s => exact hq
  | mark n => exact hq
  | cite k =>
    simp only [pass2Piece]
    by_cases hk : k ∈ vals
    · rw [if_pos hk]
    · rw [if_neg hk]
  | fnl k => exact hq

/-- C1 (corrected): the no-gaps citation invariant holds for every answer
that decomposes into bracket-free, angle-free text segments and `[n]`
markers whose numbers all lie between 1 and the number of retrieved chunks,
provided every retrieved chunk has a non-empty title and a non-zero page
and the rejection message contains no `[`.  Then the numbers appearing as
`[n]` in the final text are exactly 1, ..., len(citations).  (The unamended
claim, quantified over all answers, is refuted by
`citation_invariant_cex`: an out-of-range marker such as `[2]` with a
single chunk survives renumbering while the citation list is empty.) -/
theorem citation_invariant_amended (rej : Text) (chunks : List RChunk) (ps : List Piece)
    (hrej : '[' ∉ rej)
    (hraw : rawPieces ps = true)
    (hrange : ∀ n ∈ marksOf ps, 1 ≤ n ∧ n ≤ chunks.length)
    (hval : ∀ c ∈ chunks, c.title ≠ [] ∧ c.page ≠ 0) :
    dedupSort (extractAll (resolveCitationsWith rej chunks (flatten ps)).fst) =
      List.range' 1 (resolveCitationsWith rej chunks (flatten ps)).snd.length := by
  have hokP : piecesOk ps = true := by
    have h := hraw
    unfold rawPieces at h
    rw [Bool.and_eq_true] at h
    exact h.2
  have hallraw : ps.all rawPiece = true := by
    have h := hraw
    unfold rawPieces at h
    rw [Bool.and_eq_true] at h
    exact h.1
  have hnf : noFnl ps = true := by
    unfold noFnl
    rw [List.all_eq_true]
    intro q hq
    have hr := List.all_eq_true.mp hallraw q hq
    cases q with
    | txt s => rfl
    | mark n => rfl
    | cite k => exact absurd hr (by simp [rawPiece])
    | fnl k => exact absurd hr (by simp [rawPiece])
  simp only [resolveCitationsWith]
  by_cases hins : hasInsufficientInfo (flatten ps) = true
  · rw [if_pos hins]
    show dedupSort (extractAll (pyStrip (removeMarkers (flatten ps)))) =
      List.range' 1 (List.length ([] : List Citation))
    rw [removeMarkers_flatten ps hraw]
    rw [extractAll_eq_nil_of_no_open _
      (fun hm => segTexts_no_open ps hokP (mem_pyStrip hm))]
    rfl
  · rw [if_neg hins]
    by_cases hmk : (dedupSort (extractAll (flatten ps))).isEmpty = true
    · rw [if_pos hmk]
      show dedupSort (extractAll rej) = List.range' 1 (List.length ([] : List Citation))
      rw [extractAll_eq_nil_of_no_open rej hrej]
      rfl
    · rw [if_neg hmk]
      rw [extractAll_flatten ps hokP hnf]
      set cited := dedupSort (marksOf ps) with hcited
      set st := dedupFold chunks cited with hst
      obtain ⟨hB, hC, hD, hE, hF⟩ := dedupFold_inv chunks cited hval
      rw [pass1_flatten st.mapping cited.reverse ps hokP]
      set qs1 := ps.map (pass1Piece st.mapping cited.reverse) with hqs1
      have ok1 : piecesOk qs1 = true := by
        rw [hqs1]
        exact piecesOk_map _ (pass1Piece_okB _ _) ps hokP
      have nf1 : noFnl qs1 = true := by
        rw [hqs1]
        exact noFnl_map _ (pass1Piece_noFnl _ _) ps hnf
      rw [pass2_flatten (dedupSort (st.mapping.map Prod.snd)) qs1 ok1 nf1]
      set vals := dedupSort (st.mapping.map Prod.snd) with hvals
      set qs2 := qs1.map (pass2Piece vals) with hqs2
      have ok2 : piecesOk qs2 = true := by
        rw [hqs2]
        exact piecesOk_map _ (pass2Piece_okB _) qs1 ok1
      have nf2 : noFnl qs2 = true := by
        rw [hqs2]
        exact noFnl_map _ (pass2Piece_noFnl _) qs1 nf1
      rw [extractAll_flatten qs2 ok2 nf2]
      set fc := dedupSort (marksOf qs2) with hfc
      have hq2mem : ∀ a : Nat, Piece.mark a ∈ qs2 ↔ 1 ≤ a ∧ a ≤ st.citations.length := by
        intro a
        constructor
        · intro hmark
          rw [hqs2] at hmark
          obtain ⟨q1, hq1, hgq1⟩ := List.mem_map.mp hmark
          rw [hqs1] at hq1
          obtain ⟨q0, hq0, hfq0⟩ := List.mem_map.mp hq1
          rw [← hfq0] at hgq1
          cases q0 with
          | txt s => simp [pass1Piece, pass2Piece] at hgq1
          | mark n =>
            have hn : n ∈ marksOf ps := mem_marksOf.mpr hq0
            have hnr := hrange n hn
            have hnc : n ∈ cited := by
              rw [hcited]
              exact (mem_dedupSort n _).mpr hn
            have hno : n ∈ cited.reverse := List.mem_reverse.mpr hnc
            obtain ⟨v, hv2⟩ := hD n hnc (by omega) (by omega)
            have hvm : (n, v) ∈ st.mapping := lookup_some_mem _ hv2
            have hvB := hB (n, v) hvm
            have hvv : v ∈ vals := by
              rw [hvals]
              exact (mem_dedupSort v _).mpr (List.mem_map.mpr ⟨(n, v), hvm, rfl⟩)
            rw [show pass1Piece st.mapping cited.reverse (Piece.mark n) = Piece.cite v
              from by simp [pass1Piece, hno, hv2]] at hgq1
            have hva : v = a := by simpa [pass2Piece, hvv] using hgq1
            have h4 : 1 ≤ v := hvB.2.2.2.1
            have h5 : v ≤ st.citations.length := hvB.2.2.2.2
            omega
          | cite k =>
            have := List.all_eq_true.mp hallraw _ hq0
            simp [rawPiece] at this
          | fnl k =>
            have := List.all_eq_true.mp hallraw _ hq0
            simp [rawPiece] at this
        · intro ⟨h1a, h2a⟩
          obtain ⟨p, hp, hps⟩ := hE a h1a h2a
          obtain ⟨j, v⟩ := p
          have hva : v = a := hps
          subst hva
          have hpB := hB (j, v) hp
          have hjc : j ∈ cited := hpB.1
          have hjm : j ∈ marksOf ps := by
            rw [hcited] at hjc
            exact (mem_dedupSort j _).mp hjc
          have hmark : Piece.mark j ∈ ps := mem_marksOf.mp hjm
          have hlook : mappingLookup st.mapping j = some v := lookup_of_mem_nodup _ hF hp
          have hvv : v ∈ vals := by
            rw [hvals]
            exact (mem_dedupSort v _).mpr (List.mem_map.mpr ⟨(j, v), hp, rfl⟩)
          rw [hqs2]
          refine List.mem_map.mpr ⟨pass1Piece st.mapping cited.reverse (Piece.mark j), ?_, ?_⟩
          · rw [hqs1]
            exact List.mem_map.mpr ⟨Piece.mark j, hmark, rfl⟩
          · rw [show pass1Piece st.mapping cited.reverse (Piece.mark j) = Piece.cite v
              from by simp [pass1Piece, List.mem_reverse.mpr hpB.1, hlook]]
            simp [pass2Piece, hvv]
      have K2 : fc = List.range' 1 st.citations.length := by
        rw [hfc]
        apply pairwise_lt_ext
        · exact dedupSort_pairwise _
        · exact range'_pairwise _ _
        · intro a
          rw [mem_dedupSort, List.mem_range'_1]
          constructor
          · intro ha
            have hx := (hq2mem a).mp (mem_marksOf.mp ha)
            exact ⟨hx.1, by omega⟩
          · intro ha
            exact mem_marksOf.mpr ((hq2mem a).mpr ⟨ha.1, by omega⟩)
      have K3 : filterByIndex st.citations fc = st.citations := by
        apply filterByIndex_all
        intro i h1 h2
        rw [K2, List.mem_range'_1]
        exact ⟨h1, by omega⟩
      have K4 : ¬ (fc ≠ [] ∧ fc ≠ List.range' 1 (filterByIndex st.citations fc).length) := by
        intro hcond
        exact hcond.2 (by rw [K3, ← K2])
      rw [if_neg K4]
      show dedupSort (extractAll (flatten qs2)) =
        List.range' 1 (filterByIndex st.citations fc).length
      rw [extractAll_flatten qs2 ok2 nf2, ← hfc, K3]
      exact K2

/-- Closed instance of the amended C1 invariant: a one-chunk retrieval and
the answer "Fact [1]." decomposed as a segment and the marker [1]; each
hypothesis is discharged by evaluation. -/
theorem citation_invariant_amended_witness :
    dedupSort (extractAll (resolveCitationsWith chatRejectionText
        [⟨("A").data, 1, ("u").data, ("t").data⟩]
        (flatten [Piece.txt (("Fact ").data), Piece.mark 1])).fst) =
      List.range' 1 (resolveCitationsWith chatRejectionText
        [⟨("A").data, 1, ("u").data, ("t").data⟩]
        (flatten [Piece.txt (("Fact ").data), Piece.mark 1])).snd.length :=
  citation_invariant_amended chatRejectionText
    [⟨("A").data, 1, ("u").data, ("t").data⟩]
    [Piece.txt (("Fact ").data), Piece.mark 1]
    (by decide) (by decide) (by decide) (by decide)

end MarpGuide
